import Mathlib

/-!
Verification development for the bugsink envelope parser and digestion
pipeline.

Byte streams are modelled as `List Nat` (one `Nat` per byte, `10` is the
newline byte).  The streaming parser of `ingest/parsers.py` is translated
as a pure state-passing function: the input stream is the list of unread
bytes, `read(chunk_size)` takes a prefix of it.  JSON header decoding
(`json.loads`) is an external library; it is abstracted as a parameter
`decode : List Nat → Option H` together with `getLen : H → Option Int`
giving the value of the header's `length` field when present (Python
integers are unbounded, hence `Int`).  Exceptions are modelled with
`Except`.
-/

namespace Bugsink

/-- The errors raised by the parser: `ParseError(msg)` and the
`AssertionError` of the bare `assert` in `get_envelope_headers`. -/
inductive PErr where
  | parseError (msg : String)
  | assertionError
deriving DecidableEq, Repr

/-- Python `chunk[:i]` for an arbitrary (possibly negative) `Int` index:
a negative index counts from the end, clamped at zero. -/
def pySliceTo (l : List Nat) (i : Int) : List Nat :=
  if 0 ≤ i then l.take i.toNat else l.take (l.length - (-i).toNat)

/-- Python `chunk[i:]` for an arbitrary (possibly negative) `Int` index. -/
def pySliceFrom (l : List Nat) (i : Int) : List Nat :=
  if 0 ≤ i then l.drop i.toNat else l.drop (l.length - (-i).toNat)

/-- Split a byte list at its first newline (byte `10`):
`nlSplit chunk = some (before, after)` when a newline occurs, mirroring
`chunk.find(b"\n")` followed by the two slices in `NewlineFinder.process`. -/
def nlSplit : List Nat → Option (List Nat × List Nat)
  | [] => none
  | b :: t =>
    if b = 10 then some ([], t)
    else (nlSplit t).map (fun p => (b :: p.1, p.2))

/-- The two delimiter finders of `ingest/parsers.py`.
`length target count msg` carries the mutable `self.count` of
`LengthFinder` (`target` and `count` are Python ints, hence `Int`). -/
inductive Finder where
  | newline
  | length (target : Int) (count : Int) (msg : String)
deriving DecidableEq, Repr

/-- The `error_for_eof` policy: `None` on `NewlineFinder`, the constructor
argument on `LengthFinder`. -/
def Finder.errorForEof : Finder → Option String
  | .newline => none
  | .length _ _ msg => some msg

/-- Result of one `finder.process(output_stream, chunk)` call: the updated
finder state, the bytes written to the output stream, the `done` flag and
the leftover bytes. -/
structure ProcRes where
  finder : Finder
  written : List Nat
  done : Bool
  leftover : List Nat
deriving DecidableEq, Repr

/-- Translation of `NewlineFinder.process` / `LengthFinder.process` from
`ingest/parsers.py`, combined over the `Finder` state. -/
def Finder.process : Finder → List Nat → ProcRes
  | .newline, chunk =>
    match nlSplit chunk with
    | some (part, rest) => ⟨.newline, part, true, rest⟩
    | none => ⟨.newline, chunk, false, []⟩
  | .length target count msg, chunk =>
    if target - count ≤ (chunk.length : Int) then
      ⟨.length target count msg, pySliceTo chunk (target - count), true,
        pySliceFrom chunk (target - count)⟩
    else
      ⟨.length target (count + chunk.length) msg, chunk, false, []⟩

/-- The `while not done` loop of `readuntil`: repeatedly read a chunk of
at most `cs` bytes from the stream `data` and feed it to the finder.
An empty read is end-of-stream: clean success when `error_for_eof` is
`None`, otherwise a `ParseError` with that message.  The result is
`(bytes written to output, final remainder, at_eof flag, unread stream)`.
`fuel` bounds the number of reads; the wrapper `readuntil` supplies
`data.length + 1` which is enough because every non-final iteration
consumes at least one byte of `data`. -/
def readuntilGo (f : Finder) (cs : Nat) (fuel : Nat) (out data : List Nat) :
    Except String (List Nat × List Nat × Bool × List Nat) :=
  match fuel with
  | 0 => .ok (out, [], false, data)
  | fuel + 1 =>
    if data.take cs = [] then
      match f.errorForEof with
      | none => .ok (out, [], true, data)
      | some msg => .error msg
    else
      if (f.process (data.take cs)).done then
        .ok (out ++ (f.process (data.take cs)).written,
             (f.process (data.take cs)).leftover, false, data.drop cs)
      else
        readuntilGo (f.process (data.take cs)).finder cs fuel
          (out ++ (f.process (data.take cs)).written) (data.drop cs)

/-- Translation of
`readuntil(input_stream, initial_chunk, finder, output_stream, chunk_size)`:
first processes the initial chunk, then loops reading from the stream. -/
def readuntil (data initial : List Nat) (f : Finder) (cs : Nat) :
    Except String (List Nat × List Nat × Bool × List Nat) :=
  if (f.process initial).done then
    .ok ((f.process initial).written, (f.process initial).leftover, false, data)
  else
    readuntilGo (f.process initial).finder cs (data.length + 1)
      (f.process initial).written data

/-- Forget the split of the post-call bytes into (remainder, unread stream):
only their concatenation is chunking-invariant. -/
def ruFlat (r : Except String (List Nat × List Nat × Bool × List Nat)) :
    Except String (List Nat × List Nat × Bool) :=
  match r with
  | .error e => .error e
  | .ok (out, rem, eof, d) => .ok (out, rem ++ d, eof)

/-- Chunk-free description of `readuntil` on the concatenation of initial
chunk and stream, valid for well-formed finders (`FinderOk`). -/
def ruSpec (f : Finder) (d : List Nat) : Except String (List Nat × List Nat × Bool) :=
  match f with
  | .newline =>
    match nlSplit d with
    | some (part, rest) => .ok (part, rest, false)
    | none => .ok (d, [], true)
  | .length target count msg =>
    if target - count ≤ (d.length : Int) then
      .ok (pySliceTo d (target - count), pySliceFrom d (target - count), false)
    else
      .error msg

/-- Finder states reachable with a non-negative declared length: the
number of still-needed bytes is non-negative. -/
def FinderOk : Finder → Prop
  | .newline => True
  | .length target count _ => 0 ≤ target - count

theorem pySliceTo_nonneg (l : List Nat) (i : Int) (h : 0 ≤ i) :
    pySliceTo l i = l.take i.toNat := by
  simp [pySliceTo, h]

theorem pySliceFrom_nonneg (l : List Nat) (i : Int) (h : 0 ≤ i) :
    pySliceFrom l i = l.drop i.toNat := by
  simp [pySliceFrom, h]

theorem process_newline_some (chunk part rest : List Nat)
    (h : nlSplit chunk = some (part, rest)) :
    Finder.process .newline chunk = ⟨.newline, part, true, rest⟩ := by
  simp [Finder.process, h]

theorem process_newline_none (chunk : List Nat) (h : nlSplit chunk = none) :
    Finder.process .newline chunk = ⟨.newline, chunk, false, []⟩ := by
  simp [Finder.process, h]

theorem process_length_done (chunk : List Nat) (target count : Int) (msg : String)
    (h : target - count ≤ (chunk.length : Int)) :
    Finder.process (.length target count msg) chunk =
      ⟨.length target count msg, pySliceTo chunk (target - count), true,
        pySliceFrom chunk (target - count)⟩ := by
  simp [Finder.process, h]

theorem process_length_more (chunk : List Nat) (target count : Int) (msg : String)
    (h : ¬ (target - count ≤ (chunk.length : Int))) :
    Finder.process (.length target count msg) chunk =
      ⟨.length target (count + chunk.length) msg, chunk, false, []⟩ := by
  simp only [Finder.process, if_neg h]

theorem nlSplit_append (a b : List Nat) :
    nlSplit (a ++ b) =
      match nlSplit a with
      | some (part, rest) => some (part, rest ++ b)
      | none => (nlSplit b).map (fun p => (a ++ p.1, p.2)) := by
  induction a with
  | nil =>
    simp only [List.nil_append, nlSplit]
    cases h : nlSplit b with
    | none => simp
    | some p => simp
  | cons x t ih =>
    simp only [List.cons_append, nlSplit, List.append_eq]
    by_cases hx : x = 10
    · simp [hx]
    · simp only [hx, if_false]
      rw [ih]
      cases ht : nlSplit t with
      | none =>
        cases hb : nlSplit b with
        | none => simp
        | some p => simp
      | some p => simp

theorem take_nonempty_of (cs : Nat) (data : List Nat) (hcs : 1 ≤ cs)
    (hd : data ≠ []) : data.take cs ≠ [] := by
  simp only [ne_eq, List.take_eq_nil_iff]
  push_neg
  exact ⟨by omega, hd⟩

theorem length_pos_of_ne_nil (data : List Nat) (hd : data ≠ []) :
    1 ≤ data.length := by
  cases data with
  | nil => exact absurd rfl hd
  | cons a t => simp

theorem readuntilGo_newline_flat (cs : Nat) (hcs : 1 ≤ cs) :
    ∀ fuel out data, data.length < fuel →
      ruFlat (readuntilGo .newline cs fuel out data) =
        match nlSplit data with
        | some (part, rest) => .ok (out ++ part, rest, false)
        | none => .ok (out ++ data, [], true) := by
  intro fuel
  induction fuel with
  | zero => intro out data h; omega
  | succ fuel ih =>
    intro out data h
    by_cases hd : data = []
    · subst hd
      simp [readuntilGo, nlSplit, ruFlat, Finder.errorForEof]
    · have hchunk := take_nonempty_of cs data hcs hd
      rw [readuntilGo, if_neg hchunk]
      have hsplit := nlSplit_append (data.take cs) (data.drop cs)
      rw [List.take_append_drop] at hsplit
      cases hc : nlSplit (data.take cs) with
      | some p =>
        obtain ⟨part, rest⟩ := p
        rw [hc] at hsplit
        rw [process_newline_some _ _ _ hc, hsplit]
        simp [ruFlat]
      | none =>
        rw [hc] at hsplit
        rw [process_newline_none _ hc, hsplit]
        simp only [Bool.false_eq_true, if_false]
        have hlen : (data.drop cs).length < fuel := by
          have := length_pos_of_ne_nil data hd
          rw [List.length_drop]
          omega
        rw [ih (out ++ data.take cs) (data.drop cs) hlen]
        cases hc2 : nlSplit (data.drop cs) with
        | some p =>
          simp only [hc2, Option.map_some']
          simp [List.append_assoc]
        | none =>
          simp only [hc2, Option.map_none']
          rw [List.append_assoc, List.take_append_drop]

theorem readuntilGo_length_flat (cs : Nat) (hcs : 1 ≤ cs) (target : Int) (msg : String) :
    ∀ fuel out data (count : Int), data.length < fuel → 0 < target - count →
      ruFlat (readuntilGo (.length target count msg) cs fuel out data) =
        if target - count ≤ (data.length : Int) then
          .ok (out ++ data.take (target - count).toNat,
               data.drop (target - count).toNat, false)
        else .error msg := by
  intro fuel
  induction fuel with
  | zero => intro out data count h _; omega
  | succ fuel ih =>
    intro out data count h hpos
    by_cases hd : data = []
    · subst hd
      rw [readuntilGo, if_pos (by simp)]
      rw [if_neg (by simp only [List.length_nil, Nat.cast_zero]; omega)]
      rfl
    · have hdl := length_pos_of_ne_nil data hd
      have hchunk := take_nonempty_of cs data hcs hd
      have hclen : (data.take cs).length = min cs data.length := List.length_take ..
      rw [readuntilGo, if_neg hchunk]
      by_cases hdone : target - count ≤ ((data.take cs).length : Int)
      · rw [process_length_done _ _ _ _ hdone]
        simp only [if_true]
        have hn : (target - count).toNat ≤ (data.take cs).length := by omega
        have hncs : (target - count).toNat ≤ cs := by omega
        have hcond : target - count ≤ (data.length : Int) := by
          rw [hclen] at hn; omega
        rw [if_pos hcond]
        rw [pySliceTo_nonneg _ _ (le_of_lt hpos), pySliceFrom_nonneg _ _ (le_of_lt hpos)]
        simp only [ruFlat, Except.ok.injEq, Prod.mk.injEq]
        refine ⟨?_, ?_, trivial⟩
        · rw [List.take_take, min_eq_left hncs]
        · rw [List.drop_take]
          have heq : data.drop cs =
              ((data.drop ((target - count).toNat)).drop (cs - (target - count).toNat)) := by
            rw [List.drop_drop]
            congr 1
            omega
          rw [heq, List.take_append_drop]
      · rw [process_length_more _ _ _ _ hdone]
        simp only [Bool.false_eq_true, if_false]
        have hpos2 : 0 < target - (count + ((data.take cs).length : Int)) := by omega
        have hlen2 : (data.drop cs).length < fuel := by
          rw [List.length_drop]; omega
        rw [ih (out ++ data.take cs) (data.drop cs)
              (count + ((data.take cs).length : Int)) hlen2 hpos2]
        by_cases hcase : data.length ≤ cs
        · have hchunkall : data.take cs = data := List.take_of_length_le hcase
          have hdrop : data.drop cs = [] := List.drop_eq_nil_of_le hcase
          rw [hchunkall, hdrop]
          rw [if_neg (by simp only [List.length_nil, Nat.cast_zero]; omega)]
          rw [if_neg (by push_neg at hdone ⊢; rw [hchunkall] at hdone; omega)]
        · push_neg at hcase
          have hceq : (data.take cs).length = cs := by omega
          rw [hceq]
          have hdroplen : ((data.drop cs).length : Int) = (data.length : Int) - cs := by
            rw [List.length_drop]
            omega
          by_cases hfits : target - count ≤ (data.length : Int)
          · rw [if_pos (by omega), if_pos hfits]
            have harith : (target - count).toNat = cs + (target - (count + (cs : Int))).toNat := by
              rw [hclen] at hdone; omega
            simp only [Except.ok.injEq, Prod.mk.injEq]
            refine ⟨?_, ?_, trivial⟩
            · rw [harith, List.take_add, List.append_assoc]
            · rw [List.drop_drop]
              congr 1
              omega
          · rw [if_neg (by omega), if_neg hfits]

theorem readuntil_flat (data initial : List Nat) (f : Finder) (cs : Nat)
    (hcs : 1 ≤ cs) (hf : FinderOk f) :
    ruFlat (readuntil data initial f cs) = ruSpec f (initial ++ data) := by
  cases f with
  | newline =>
    rw [readuntil]
    have hsplit := nlSplit_append initial data
    cases hc : nlSplit initial with
    | some p =>
      obtain ⟨part, rest⟩ := p
      rw [hc] at hsplit
      rw [process_newline_some _ _ _ hc]
      simp only [if_true, ruSpec, hsplit, ruFlat]
    | none =>
      rw [hc] at hsplit
      rw [process_newline_none _ hc]
      simp only [Bool.false_eq_true, if_false]
      rw [readuntilGo_newline_flat cs hcs (data.length + 1) initial data (by omega)]
      simp only [ruSpec, hsplit]
      cases hc2 : nlSplit data with
      | some p => simp
      | none => simp
  | length target count msg =>
    have hpos : 0 ≤ target - count := hf
    rw [readuntil]
    by_cases hdone : target - count ≤ ((initial.length) : Int)
    · rw [process_length_done _ _ _ _ hdone]
      simp only [if_true, ruFlat, ruSpec]
      rw [if_pos (by simp only [List.length_append]; push_cast; omega)]
      rw [pySliceTo_nonneg _ _ hpos, pySliceFrom_nonneg _ _ hpos,
          pySliceTo_nonneg _ _ hpos, pySliceFrom_nonneg _ _ hpos]
      have hn : (target - count).toNat ≤ initial.length := by omega
      simp only [Except.ok.injEq, Prod.mk.injEq]
      refine ⟨?_, ?_, trivial⟩
      · rw [List.take_append_eq_append_take,
            show (target - count).toNat - initial.length = 0 by omega, List.take_zero,
            List.append_nil]
      · rw [List.drop_append_eq_append_drop,
            show (target - count).toNat - initial.length = 0 by omega, List.drop_zero]
    · rw [process_length_more _ _ _ _ hdone]
      simp only [Bool.false_eq_true, if_false]
      rw [readuntilGo_length_flat cs hcs target msg (data.length + 1) initial data
            (count + (initial.length : Int)) (by omega) (by omega)]
      simp only [ruSpec]
      by_cases hfits : target - count ≤ (((initial ++ data).length) : Int)
      · rw [if_pos (by simp only [List.length_append] at hfits; push_cast at hfits ⊢; omega),
            if_pos hfits]
        rw [pySliceTo_nonneg _ _ hpos, pySliceFrom_nonneg _ _ hpos]
        have harith : (target - count).toNat =
            initial.length + (target - (count + (initial.length : Int))).toNat := by
          omega
        simp only [Except.ok.injEq, Prod.mk.injEq]
        refine ⟨?_, ?_, trivial⟩
        · rw [harith, List.take_add, List.take_left, List.drop_left]
        · have hr : List.drop (target - count).toNat (initial ++ data) =
              data.drop (target - (count + (initial.length : Int))).toNat := by
            rw [List.drop_append_eq_append_drop, List.drop_of_length_le (by omega),
                List.nil_append]
            congr 1
            omega
          rw [hr]
      · rw [if_neg (by simp only [List.length_append] at hfits; push_cast at hfits ⊢; omega),
            if_neg hfits]

/-- Message of the `ParseError` raised by `_parse_headers` at end-of-stream. -/
def eofHeadersMsg : String := "EOF when reading headers; what is this a header for then?"

/-- Message of the `ParseError` raised on a JSON decoding failure. -/
def jsonErrMsg : String := "Header not JSON"

/-- The `error_for_eof` of the `LengthFinder` constructed in `get_items`. -/
def lengthEofMsg : String := "EOF while reading item with explicitly specified length"

/-- Translation of `StreamingEnvelopeParser._parse_headers`: reads one header line with a
`NewlineFinder`, updating the parser state `(remainder, at_eof)`.  Returns
`none` for the empty-at-EOF sentinel, raises `ParseError` when data was
found right before EOF and `eof_is_error` holds, otherwise decodes the
line as JSON (abstracted by `decode`).  The result carries
`(headers?, remainder, unread stream, at_eof)`. -/
def parseHeadersM {H : Type} (decode : List Nat → Option H) (eofIsError : Bool)
    (cs : Nat) (rem data : List Nat) :
    Except PErr (Option H × List Nat × List Nat × Bool) :=
  match readuntil data rem .newline cs with
  | .error msg => .error (.parseError msg)
  | .ok (out, rem', eof, data') =>
    if eof ∧ out = [] then .ok (none, rem', data', eof)
    else if eof ∧ eofIsError then .error (.parseError eofHeadersMsg)
    else
      match decode out with
      | some h => .ok (some h, rem', data', eof)
      | none => .error (.parseError jsonErrMsg)

/-- Forget the (remainder, unread stream) split of `parseHeadersM`. -/
def phFlat {H : Type} (r : Except PErr (Option H × List Nat × List Nat × Bool)) :
    Except PErr (Option H × List Nat × Bool) :=
  match r with
  | .error e => .error e
  | .ok (h, rem, d, eof) => .ok (h, rem ++ d, eof)

/-- Chunk-free description of `_parse_headers` on the concatenated
available bytes. -/
def phSpec {H : Type} (decode : List Nat → Option H) (eofIsError : Bool)
    (d : List Nat) : Except PErr (Option H × List Nat × Bool) :=
  match nlSplit d with
  | some (part, rest) =>
    (match decode part with
     | some h => .ok (some h, rest, false)
     | none => .error (.parseError jsonErrMsg))
  | none =>
    if d = [] then .ok (none, [], true)
    else if eofIsError then .error (.parseError eofHeadersMsg)
    else
      match decode d with
      | some h => .ok (some h, [], true)
      | none => .error (.parseError jsonErrMsg)

theorem parseHeadersM_flat {H : Type} (decode : List Nat → Option H)
    (eofIsError : Bool) (cs : Nat) (rem data : List Nat) (hcs : 1 ≤ cs) :
    phFlat (parseHeadersM decode eofIsError cs rem data) =
      phSpec decode eofIsError (rem ++ data) := by
  have hru := readuntil_flat data rem .newline cs hcs trivial
  cases hr : readuntil data rem .newline cs with
  | error msg =>
    rw [hr] at hru
    simp only [ruFlat, ruSpec] at hru
    cases hc : nlSplit (rem ++ data) with
    | some p => rw [hc] at hru; simp at hru
    | none => rw [hc] at hru; simp at hru
  | ok v =>
    obtain ⟨out, rem', eof, data'⟩ := v
    rw [hr] at hru
    simp only [ruFlat, ruSpec] at hru
    cases hc : nlSplit (rem ++ data) with
    | some p =>
      obtain ⟨part, rest⟩ := p
      rw [hc] at hru
      simp only [Except.ok.injEq, Prod.mk.injEq] at hru
      obtain ⟨hout, hrest, heof⟩ := hru
      subst hout heof
      cases hd : decode out with
      | some h => simp [parseHeadersM, hr, phSpec, hc, phFlat, hd, hrest]
      | none => simp [parseHeadersM, hr, phSpec, hc, phFlat, hd]
    | none =>
      rw [hc] at hru
      simp only [Except.ok.injEq, Prod.mk.injEq] at hru
      obtain ⟨hout, hrest, heof⟩ := hru
      subst heof
      rw [List.append_eq_nil] at hrest
      obtain ⟨hrem', hdata'⟩ := hrest
      subst hout hrem' hdata'
      by_cases hde : rem ++ data = []
      · simp [parseHeadersM, hr, phSpec, hc, phFlat, hde, nlSplit]
      · cases hee : eofIsError with
        | true => simp [parseHeadersM, hr, phSpec, hc, phFlat, hde]
        | false =>
          cases hd : decode (rem ++ data) with
          | some h => simp [parseHeadersM, hr, phSpec, hc, phFlat, hde, hd]
          | none => simp [parseHeadersM, hr, phSpec, hc, phFlat, hde, hd]

/-- The `while not self.at_eof` loop of `StreamingEnvelopeParser.get_items`,
as a function of the parser state `(remainder, unread stream, at_eof)`.
Each iteration parses item headers (`eof_is_error=True`), selects a
`LengthFinder` when the decoded headers carry a `length` and a
`NewlineFinder` otherwise, streams the body into the item's output (the
returned byte list), and for length-items runs one extra `NewlineFinder`
pass (discarded output) for the optional trailing newline.  The result is
the list of yielded `(item headers, item body)` pairs together with the
error that terminated the generator, if any.  `fuel` bounds the number of
iterations; every yielding iteration consumes at least the header's
newline byte, so the `parseEnvelope` wrapper's `fuel` is enough. -/
def getItemsLoop {H : Type} (decode : List Nat → Option H) (getLen : H → Option Int)
    (cs : Nat) : Nat → List Nat → List Nat → Bool → List (H × List Nat) × Option PErr
  | 0, _, _, _ => ([], none)
  | fuel + 1, rem, data, atEof =>
    if atEof then ([], none)
    else
      match parseHeadersM decode true cs rem data with
      | .error e => ([], some e)
      | .ok (none, _, _, _) => ([], none)
      | .ok (some h, rem', data', _) =>
        match getLen h with
        | some len =>
          match readuntil data' rem' (.length len 0 lengthEofMsg) cs with
          | .error msg => ([], some (.parseError msg))
          | .ok (body, rem2, _, data2) =>
            match readuntil data2 rem2 .newline cs with
            | .error msg => ([], some (.parseError msg))
            | .ok (_, rem3, eof3, data3) =>
              ((h, body) :: (getItemsLoop decode getLen cs fuel rem3 data3 eof3).1,
                (getItemsLoop decode getLen cs fuel rem3 data3 eof3).2)
        | none =>
          match readuntil data' rem' .newline cs with
          | .error msg => ([], some (.parseError msg))
          | .ok (body, rem2, eof2, data2) =>
            ((h, body) :: (getItemsLoop decode getLen cs fuel rem2 data2 eof2).1,
              (getItemsLoop decode getLen cs fuel rem2 data2 eof2).2)

/-- Chunk-free description of the `get_items` loop on the concatenated
available bytes. -/
def itemsSpec {H : Type} (decode : List Nat → Option H) (getLen : H → Option Int) :
    Nat → List Nat → Bool → List (H × List Nat) × Option PErr
  | 0, _, _ => ([], none)
  | fuel + 1, d, atEof =>
    if atEof then ([], none)
    else
      match phSpec decode true d with
      | .error e => ([], some e)
      | .ok (none, _, _) => ([], none)
      | .ok (some h, d', _) =>
        match getLen h with
        | some len =>
          match ruSpec (.length len 0 lengthEofMsg) d' with
          | .error msg => ([], some (.parseError msg))
          | .ok (body, d2, _) =>
            match ruSpec .newline d2 with
            | .error msg => ([], some (.parseError msg))
            | .ok (_, d3, eof3) =>
              ((h, body) :: (itemsSpec decode getLen fuel d3 eof3).1,
                (itemsSpec decode getLen fuel d3 eof3).2)
        | none =>
          match ruSpec .newline d' with
          | .error msg => ([], some (.parseError msg))
          | .ok (body, d2, eof2) =>
            ((h, body) :: (itemsSpec decode getLen fuel d2 eof2).1,
              (itemsSpec decode getLen fuel d2 eof2).2)

theorem getItemsLoop_flat {H : Type} (decode : List Nat → Option H)
    (getLen : H → Option Int) (hLen : ∀ h L, getLen h = some L → 0 ≤ L)
    (cs : Nat) (hcs : 1 ≤ cs) :
    ∀ fuel rem data atEof,
      getItemsLoop decode getLen cs fuel rem data atEof =
        itemsSpec decode getLen fuel (rem ++ data) atEof := by
  intro fuel
  induction fuel with
  | zero => intro rem data atEof; rfl
  | succ fuel ih =>
    intro rem data atEof
    cases atEof with
    | true => rfl
    | false =>
      rw [getItemsLoop, itemsSpec]
      simp only [Bool.false_eq_true, if_false]
      have hph := parseHeadersM_flat decode true cs rem data hcs
      cases hm : parseHeadersM decode true cs rem data with
      | error e =>
        rw [hm] at hph
        simp only [phFlat] at hph
        rw [← hph]
      | ok v =>
        obtain ⟨hopt, rem', data', eof'⟩ := v
        rw [hm] at hph
        simp only [phFlat] at hph
        rw [← hph]
        cases hopt with
        | none => rfl
        | some h =>
          cases hl : getLen h with
          | none =>
            simp only [hl]
            have hru := readuntil_flat data' rem' .newline cs hcs trivial
            cases hb : readuntil data' rem' .newline cs with
            | error msg =>
              rw [hb] at hru
              simp only [ruFlat] at hru
              rw [← hru]
            | ok w =>
              obtain ⟨body, rem2, eof2, data2⟩ := w
              rw [hb] at hru
              simp only [ruFlat] at hru
              rw [← hru]
              simp only []
              rw [ih rem2 data2 eof2]
          | some len =>
            simp only [hl]
            have hok : FinderOk (.length len 0 lengthEofMsg) := by
              have := hLen h len hl
              simp only [FinderOk]
              omega
            have hru := readuntil_flat data' rem' (.length len 0 lengthEofMsg) cs hcs hok
            cases hb : readuntil data' rem' (.length len 0 lengthEofMsg) cs with
            | error msg =>
              rw [hb] at hru
              simp only [ruFlat] at hru
              rw [← hru]
            | ok w =>
              obtain ⟨body, rem2, eof2, data2⟩ := w
              rw [hb] at hru
              simp only [ruFlat] at hru
              rw [← hru]
              simp only []
              have hru2 := readuntil_flat data2 rem2 .newline cs hcs trivial
              cases hb2 : readuntil data2 rem2 .newline cs with
              | error msg =>
                rw [hb2] at hru2
                simp only [ruFlat] at hru2
                rw [← hru2]
              | ok w2 =>
                obtain ⟨disc, rem3, eof3, data3⟩ := w2
                rw [hb2] at hru2
                simp only [ruFlat] at hru2
                rw [← hru2]
                simp only []
                rw [ih rem3 data3 eof3]

/-- Translation of `StreamingEnvelopeParser.get_envelope_headers`: parses the envelope
header line with `eof_is_error=False`, then asserts the result is not the
`None` sentinel. -/
def getEnvelopeHeaders {H : Type} (decode : List Nat → Option H) (cs : Nat)
    (data : List Nat) : Except PErr (H × List Nat × List Nat × Bool) :=
  match parseHeadersM decode false cs [] data with
  | .error e => .error e
  | .ok (none, _, _, _) => .error .assertionError
  | .ok (some h, rem, d, eof) => .ok (h, rem, d, eof)

/-- Full envelope parse as driven by `IngestEnvelopeAPIView._post`:
`get_envelope_headers` followed by the `get_items` loop.  The items
component pairs each yielded `(item headers, item body)` with the error,
if any, that ended the generator. -/
def parseEnvelope {H : Type} (decode : List Nat → Option H) (getLen : H → Option Int)
    (data : List Nat) (cs : Nat) :
    Except PErr (H × (List (H × List Nat) × Option PErr)) :=
  match getEnvelopeHeaders decode cs data with
  | .error e => .error e
  | .ok (h, rem, d, eof) =>
    .ok (h, getItemsLoop decode getLen cs (rem.length + d.length + 1) rem d eof)

theorem nlSplit_eq_none (bs : List Nat) : nlSplit bs = none ↔ (10 : Nat) ∉ bs := by
  induction bs with
  | nil => simp [nlSplit]
  | cons b t ih =>
    by_cases hb : b = 10
    · simp [nlSplit, hb]
    · have hb' : ¬ (10 : Nat) = b := fun hh => hb hh.symm
      simp [nlSplit, hb, Option.map_eq_none', ih, hb']

theorem nlSplit_headerLine (a b : List Nat) (hna : (10 : Nat) ∉ a) :
    nlSplit (a ++ 10 :: b) = some (a, b) := by
  rw [nlSplit_append, (nlSplit_eq_none a).2 hna]
  simp [nlSplit]

theorem phSpec_headerLine {H : Type} (decode : List Nat → Option H) (flag : Bool)
    (a b : List Nat) (h : H) (hna : (10 : Nat) ∉ a) (hd : decode a = some h) :
    phSpec decode flag (a ++ 10 :: b) = .ok (some h, b, false) := by
  rw [phSpec, nlSplit_headerLine a b hna]
  simp [hd]

theorem ruSpec_length_exact (L : Nat) (msg : String) (body rest : List Nat)
    (hb : body.length = L) :
    ruSpec (.length (L : Int) 0 msg) (body ++ rest) = .ok (body, rest, false) := by
  rw [ruSpec]
  rw [if_pos (by simp only [List.length_append]; push_cast; omega)]
  rw [pySliceTo_nonneg _ _ (by omega), pySliceFrom_nonneg _ _ (by omega)]
  have hn : ((L : Int) - 0).toNat = body.length := by omega
  rw [hn, List.take_left, List.drop_left]

theorem ruSpec_length_whole (L : Nat) (msg : String) (body : List Nat)
    (hb : body.length = L) :
    ruSpec (.length (L : Int) 0 msg) body = .ok (body, [], false) := by
  have h := ruSpec_length_exact L msg body [] hb
  rwa [List.append_nil] at h

theorem itemsSpec_atEof {H : Type} (decode : List Nat → Option H)
    (getLen : H → Option Int) (fuel : Nat) (d : List Nat) :
    itemsSpec decode getLen fuel d true = ([], none) := by
  cases fuel <;> rfl

theorem itemsSpec_step {H : Type} (decode : List Nat → Option H)
    (getLen : H → Option Int) (fuel : Nat) (hb body suffix : List Nat) (h : H)
    (L : Nat) (hna : (10 : Nat) ∉ hb) (hd : decode hb = some h)
    (hl : getLen h = some (L : Int)) (hlen : body.length = L) :
    itemsSpec decode getLen (fuel + 1) (hb ++ 10 :: (body ++ 10 :: suffix)) false =
      ((h, body) :: (itemsSpec decode getLen fuel suffix false).1,
        (itemsSpec decode getLen fuel suffix false).2) := by
  rw [itemsSpec]
  simp only [Bool.false_eq_true, if_false]
  rw [phSpec_headerLine decode true hb _ h hna hd]
  simp only [hl]
  rw [ruSpec_length_exact L lengthEofMsg body (10 :: suffix) hlen]
  simp only []
  rw [show ruSpec .newline (10 :: suffix) = .ok ([], suffix, false) from by
    simp [ruSpec, nlSplit]]

theorem itemsSpec_lastStep {H : Type} (decode : List Nat → Option H)
    (getLen : H → Option Int) (fuel : Nat) (hb body : List Nat) (h : H)
    (L : Nat) (hna : (10 : Nat) ∉ hb) (hd : decode hb = some h)
    (hl : getLen h = some (L : Int)) (hlen : body.length = L) :
    itemsSpec decode getLen (fuel + 1) (hb ++ 10 :: body) false = ([(h, body)], none) := by
  rw [itemsSpec]
  simp only [Bool.false_eq_true, if_false]
  rw [phSpec_headerLine decode true hb _ h hna hd]
  simp only [hl]
  rw [ruSpec_length_whole L lengthEofMsg body hlen]
  simp only []
  rw [show ruSpec .newline [] = .ok ([], [], true) from by simp [ruSpec, nlSplit]]
  simp only [itemsSpec_atEof]

/-- Claim C1 (amended): envelope parsing is chunk-size independent for
every chunk size at least 1, provided every `length` value the header
decoder can produce is non-negative.  (For a negative `length`, Python's
negative-index slicing makes the parse chunk-dependent; see the
counterexample.)  Both `get_envelope_headers` and the items of `get_items`
— and any raised errors — agree across chunk sizes. -/
theorem claimC1_chunk_independent {H : Type} (decode : List Nat → Option H)
    (getLen : H → Option Int) (hLen : ∀ h L, getLen h = some L → 0 ≤ L)
    (data : List Nat) (cs₁ cs₂ : Nat) (h₁ : 1 ≤ cs₁) (h₂ : 1 ≤ cs₂) :
    parseEnvelope decode getLen data cs₁ = parseEnvelope decode getLen data cs₂ := by
  have hph₁ := parseHeadersM_flat decode false cs₁ [] data h₁
  have hph₂ := parseHeadersM_flat decode false cs₂ [] data h₂
  have hpe : phFlat (parseHeadersM decode false cs₁ [] data) =
      phFlat (parseHeadersM decode false cs₂ [] data) := hph₁.trans hph₂.symm
  rw [parseEnvelope, parseEnvelope, getEnvelopeHeaders, getEnvelopeHeaders]
  cases hm₁ : parseHeadersM decode false cs₁ [] data with
  | error e₁ =>
    cases hm₂ : parseHeadersM decode false cs₂ [] data with
    | error e₂ =>
      rw [hm₁, hm₂] at hpe
      simp only [phFlat, Except.error.injEq] at hpe
      rw [hpe]
    | ok v₂ =>
      obtain ⟨ho₂, rem₂, d₂, eof₂⟩ := v₂
      rw [hm₁, hm₂] at hpe
      simp only [phFlat] at hpe
      exact absurd hpe (by simp)
  | ok v₁ =>
    obtain ⟨ho₁, rem₁, d₁, eof₁⟩ := v₁
    cases hm₂ : parseHeadersM decode false cs₂ [] data with
    | error e₂ =>
      rw [hm₁, hm₂] at hpe
      simp only [phFlat] at hpe
      exact absurd hpe (by simp)
    | ok v₂ =>
      obtain ⟨ho₂, rem₂, d₂, eof₂⟩ := v₂
      rw [hm₁, hm₂] at hpe
      simp only [phFlat, Except.ok.injEq, Prod.mk.injEq] at hpe
      obtain ⟨hho, hflat, heof⟩ := hpe
      subst hho
      cases ho₁ with
      | none => rfl
      | some h =>
        simp only []
        rw [getItemsLoop_flat decode getLen hLen cs₁ h₁ (rem₁.length + d₁.length + 1)
              rem₁ d₁ eof₁,
            getItemsLoop_flat decode getLen hLen cs₂ h₂ (rem₂.length + d₂.length + 1)
              rem₂ d₂ eof₂]
        have hlen : rem₁.length + d₁.length = rem₂.length + d₂.length := by
          have := congrArg List.length hflat
          simpa [List.length_append] using this
        rw [hflat, hlen, heof]

/-- Concrete header decoder used in counterexamples: `{}` decodes to a
header without `length`, `{"length": -1}` to one with `length = -1`
(matching what `json.loads` does on those byte strings). -/
def cdecodeNeg : List Nat → Option (Option Int) := fun bs =>
  if bs = [123, 125] then some none
  else if bs = [123, 34, 108, 101, 110, 103, 116, 104, 34, 58, 32, 45, 49, 125] then
    some (some (-1))
  else none

/-- The `length` lookup when the header model is directly `Option Int`. -/
def cgetLenInt : Option Int → Option Int := id

/-- The envelope bytes `{}\n{"length": -1}\nAB`. -/
def negLenInput : List Nat :=
  [123, 125, 10] ++ [123, 34, 108, 101, 110, 103, 116, 104, 34, 58, 32, 45, 49, 125] ++
    [10, 65, 66]

/-- Claim C1 counterexample: with an item header declaring `length = -1`
(a value `json.loads` happily produces), parsing byte-at-a-time and
parsing in one shot disagree: `LengthFinder.process` slices
`chunk[:needed]` with negative `needed`, which depends on the chunk size.
Byte-at-a-time the item body comes out empty; in one shot it is `A`. -/
theorem claimC1_counterexample :
    parseEnvelope cdecodeNeg cgetLenInt negLenInput 1 ≠
      parseEnvelope cdecodeNeg cgetLenInt negLenInput negLenInput.length := by
  intro heq
  have h1 : parseEnvelope cdecodeNeg cgetLenInt negLenInput 1 =
      .ok (none, ([(some (-1), [])], none)) := rfl
  have h2 : parseEnvelope cdecodeNeg cgetLenInt negLenInput negLenInput.length =
      .ok (none, ([(some (-1), [65])], none)) := rfl
  rw [h1, h2] at heq
  simp at heq

/-- Header association used in witnesses: headers are `Option Nat`
(`none` = no `length`), so every declared length is non-negative. -/
def natLen : Option Nat → Option Int
  | none => none
  | some n => some (n : Int)

theorem natLen_nonneg : ∀ h L, natLen h = some L → 0 ≤ L := by
  intro h L hx
  cases h with
  | none => simp [natLen] at hx
  | some n =>
    simp only [natLen, Option.some.injEq] at hx
    rw [← hx]
    exact Int.natCast_nonneg n

theorem claimC1_witness :
    (∀ h L, natLen h = some L → 0 ≤ L) ∧ (1 : Nat) ≤ 1 ∧ (1 : Nat) ≤ 2 ∧
      parseEnvelope (fun _ => some (none : Option Nat)) natLen [10, 65, 10] 1 =
        parseEnvelope (fun _ => some (none : Option Nat)) natLen [10, 65, 10] 2 :=
  ⟨natLen_nonneg, by decide, by decide,
    claimC1_chunk_independent (fun _ => some none) natLen natLen_nonneg
      [10, 65, 10] 1 2 (by decide) (by decide)⟩

theorem phFlat_eq_error {H : Type} (r : Except PErr (Option H × List Nat × List Nat × Bool))
    (e : PErr) (h : phFlat r = .error e) : r = .error e := by
  cases r with
  | error e2 => simpa [phFlat] using h
  | ok v =>
    obtain ⟨a, b, c, d⟩ := v
    simp [phFlat] at h

/-- Claim C2 (amended): on an entirely empty input stream `_parse_headers`
with `eof_is_error=False` returns the no-headers sentinel (`None`) without
raising any error, but `get_envelope_headers` asserts that sentinel away
(`assert self.envelope_headers is not None`), so parsing the empty stream
as an envelope raises an `AssertionError` instead of yielding a clean
"no envelope headers" result. -/
theorem claimC2_empty_stream {H : Type} (decode : List Nat → Option H)
    (getLen : H → Option Int) (cs : Nat) :
    parseHeadersM decode false cs [] [] = .ok (none, [], [], true) ∧
    parseEnvelope decode getLen [] cs = .error .assertionError := by
  have hru : readuntil [] [] .newline cs = .ok ([], [], true, []) := by
    rw [readuntil, process_newline_none [] rfl]
    simp only [Bool.false_eq_true, if_false]
    rw [readuntilGo, if_pos (by simp)]
    rfl
  have h1 : parseHeadersM decode false cs [] [] = .ok (none, [], [], true) := by
    rw [parseHeadersM, hru]
    simp
  refine ⟨h1, ?_⟩
  rw [parseEnvelope, getEnvelopeHeaders, h1]

/-- Claim C2 counterexample: with the stated concrete decoder, parsing the
entirely empty stream as an envelope does raise — the result is an
`AssertionError`, not an error-free "no envelope headers" value. -/
theorem claimC2_counterexample :
    parseEnvelope cdecodeNeg cgetLenInt [] 1 = .error .assertionError := rfl

/-- Claim C3 (amended): non-empty header bytes followed directly by
end-of-stream are a `ParseError` ("EOF when reading headers...") when
parsed as an item's headers (`eof_is_error=True`, exactly how `get_items`
reads them — second conjunct), while the envelope-header parse
(`eof_is_error=False`) never raises that EOF error on the same bytes: it
attempts JSON decoding instead.  Contrary to §4.3, the EOF-after-header
rule is NOT applied identically to envelope headers and item headers. -/
theorem claimC3_eof_after_header {H : Type} (decode : List Nat → Option H)
    (getLen : H → Option Int) (cs : Nat) (bs : List Nat) (hcs : 1 ≤ cs)
    (hne : bs ≠ []) (hnl : (10 : Nat) ∉ bs) :
    parseHeadersM decode true cs [] bs = .error (.parseError eofHeadersMsg) ∧
    (∀ fuel, getItemsLoop decode getLen cs (fuel + 1) [] bs false =
      ([], some (.parseError eofHeadersMsg))) ∧
    parseHeadersM decode false cs [] bs ≠ .error (.parseError eofHeadersMsg) := by
  have hnone := (nlSplit_eq_none bs).2 hnl
  have htrue : phSpec decode true bs = .error (.parseError eofHeadersMsg) := by
    rw [phSpec, hnone]
    simp [hne]
  have part1 : parseHeadersM decode true cs [] bs = .error (.parseError eofHeadersMsg) := by
    apply phFlat_eq_error
    rw [parseHeadersM_flat decode true cs [] bs hcs, List.nil_append]
    exact htrue
  refine ⟨part1, ?_, ?_⟩
  · intro fuel
    rw [getItemsLoop]
    simp only [Bool.false_eq_true, if_false]
    rw [part1]
  · intro heq
    have hph := parseHeadersM_flat decode false cs [] bs hcs
    rw [heq, List.nil_append] at hph
    simp only [phFlat] at hph
    rw [phSpec, hnone] at hph
    simp only [if_neg hne, Bool.false_eq_true, if_false] at hph
    cases hd : decode bs with
    | some h => rw [hd] at hph; simp at hph
    | none =>
      rw [hd] at hph
      simp only [Except.error.injEq, PErr.parseError.injEq] at hph
      simp [eofHeadersMsg, jsonErrMsg] at hph

/-- Claim C3 counterexample: on the bytes `{}` with no trailing newline,
the envelope-header parse succeeds (no EOF error is raised) while the
item-header parse raises the EOF `ParseError` — refuting the claim that
the EOF-after-header rule applies identically to both. -/
theorem claimC3_counterexample :
    parseHeadersM cdecodeNeg true 1 [] [123, 125] = .error (.parseError eofHeadersMsg) ∧
    parseHeadersM cdecodeNeg false 1 [] [123, 125] = .ok (some none, [], [], true) :=
  ⟨rfl, rfl⟩

theorem claimC3_witness :
    (1 : Nat) ≤ 1 ∧ ([123, 125] : List Nat) ≠ [] ∧ (10 : Nat) ∉ ([123, 125] : List Nat) ∧
    (parseHeadersM cdecodeNeg true 1 [] [123, 125] = .error (.parseError eofHeadersMsg) ∧
      (∀ fuel, getItemsLoop cdecodeNeg cgetLenInt 1 (fuel + 1) [] [123, 125] false =
        ([], some (.parseError eofHeadersMsg))) ∧
      parseHeadersM cdecodeNeg false 1 [] [123, 125] ≠
        .error (.parseError eofHeadersMsg)) :=
  ⟨by decide, by decide, by decide,
    claimC3_eof_after_header cdecodeNeg cgetLenInt 1 [123, 125] (by decide) (by decide)
      (by decide)⟩

theorem process_preserves_errorForEof (f : Finder) (c : List Nat) :
    ((f.process c).finder).errorForEof = f.errorForEof := by
  cases f with
  | newline =>
    cases hc : nlSplit c with
    | some p =>
      obtain ⟨a, b⟩ := p
      simp [Finder.process, hc]
    | none => simp [Finder.process, hc]
  | length target count msg =>
    by_cases hl : target - count ≤ (c.length : Int)
    · simp [Finder.process, hl, Finder.errorForEof]
    · simp [Finder.process, hl, Finder.errorForEof]

theorem readuntilGo_stop (cs : Nat) (hcs : 1 ≤ cs) :
    ∀ fuel (f : Finder) (out data : List Nat), data.length < fuel →
      (∃ o r d2, readuntilGo f cs fuel out data = .ok (o, r, false, d2)) ∨
      (f.errorForEof = none ∧ ∃ o, readuntilGo f cs fuel out data = .ok (o, [], true, [])) ∨
      (∃ msg, f.errorForEof = some msg ∧ readuntilGo f cs fuel out data = .error msg) := by
  intro fuel
  induction fuel with
  | zero => intro f out data h; omega
  | succ fuel ih =>
    intro f out data h
    by_cases hd : data = []
    · subst hd
      cases hef : f.errorForEof with
      | none =>
        right; left
        refine ⟨rfl, out, ?_⟩
        rw [readuntilGo, if_pos (by simp), hef]
      | some msg =>
        right; right
        refine ⟨msg, rfl, ?_⟩
        rw [readuntilGo, if_pos (by simp), hef]
    · have hchunk := take_nonempty_of cs data hcs hd
      rw [readuntilGo, if_neg hchunk]
      by_cases hdone : (f.process (data.take cs)).done = true
      · rw [if_pos hdone]
        left
        exact ⟨_, _, _, rfl⟩
      · rw [if_neg hdone]
        have hlen : (data.drop cs).length < fuel := by
          have := length_pos_of_ne_nil data hd
          rw [List.length_drop]
          omega
        have hpres := process_preserves_errorForEof f (data.take cs)
        rcases ih ((f.process (data.take cs)).finder)
            (out ++ (f.process (data.take cs)).written) (data.drop cs) hlen with
          h1 | ⟨hef, o, h2⟩ | ⟨msg, hef, h3⟩
        · left; exact h1
        · right; left; exact ⟨by rw [← hpres]; exact hef, o, h2⟩
        · right; right; exact ⟨msg, by rw [← hpres]; exact hef, h3⟩

/-- Claim C5: `readuntil` stops when the finder signals done (first
disjunct: result is `ok` with `at_eof = False`) or when the stream is
exhausted: exhaustion with `error_for_eof = None` is treated as a clean
end (second disjunct: empty leftover data, `at_eof = True`); exhaustion
otherwise raises a `ParseError` carrying the finder's `error_for_eof`
message (third disjunct). -/
theorem claimC5_readuntil_stop (f : Finder) (data initial : List Nat) (cs : Nat)
    (hcs : 1 ≤ cs) :
    (∃ out rem d2, readuntil data initial f cs = .ok (out, rem, false, d2)) ∨
    (f.errorForEof = none ∧ ∃ out, readuntil data initial f cs = .ok (out, [], true, [])) ∨
    (∃ msg, f.errorForEof = some msg ∧ readuntil data initial f cs = .error msg) := by
  rw [readuntil]
  by_cases hdone : (f.process initial).done = true
  · rw [if_pos hdone]
    left
    exact ⟨_, _, _, rfl⟩
  · rw [if_neg hdone]
    have hpres := process_preserves_errorForEof f initial
    rcases readuntilGo_stop cs hcs (data.length + 1) ((f.process initial).finder)
        ((f.process initial).written) data (by omega) with
      h1 | ⟨hef, o, h2⟩ | ⟨msg, hef, h3⟩
    · left; exact h1
    · right; left; exact ⟨by rw [← hpres]; exact hef, o, h2⟩
    · right; right; exact ⟨msg, by rw [← hpres]; exact hef, h3⟩

theorem claimC5_witness :
    (1 : Nat) ≤ 1 ∧
    ((∃ out rem d2, readuntil [65, 10] [] .newline 1 = .ok (out, rem, false, d2)) ∨
      (Finder.errorForEof .newline = none ∧
        ∃ out, readuntil [65, 10] [] .newline 1 = .ok (out, [], true, [])) ∨
      (∃ msg, Finder.errorForEof .newline = some msg ∧
        readuntil [65, 10] [] .newline 1 = .error msg)) :=
  ⟨by decide, claimC5_readuntil_stop .newline [65, 10] [] 1 (by decide)⟩

/-- Claim C4: for an item whose decoded header carries `length = L` and
whose body is exactly `L` bytes followed by a newline, the `get_items`
loop writes exactly those `L` bytes to the item's output and consumes
exactly `L + 1` bytes for the item: for every `suffix`, the loop on
`header line ++ body ++ newline ++ suffix` yields the item and continues
exactly as a fresh loop on `suffix` (first conjunct).  If the `L` body
bytes are instead followed directly by end-of-stream, exactly `L` bytes
are consumed and the missing trailing newline is not an error: the full
envelope parse succeeds cleanly (second conjunct). -/
theorem claimC4_length_item {H : Type} (decode : List Nat → Option H)
    (getLen : H → Option Int) (hLen : ∀ h2 L2, getLen h2 = some L2 → 0 ≤ L2)
    (cs : Nat) (hcs : 1 ≤ cs) (hb body : List Nat) (h : H) (L : Nat)
    (hna : (10 : Nat) ∉ hb) (hd : decode hb = some h)
    (hl : getLen h = some (L : Int)) (hlen : body.length = L) :
    (∀ fuel suffix rem data, rem ++ data = hb ++ 10 :: (body ++ 10 :: suffix) →
       getItemsLoop decode getLen cs (fuel + 1) rem data false =
         ((h, body) :: (getItemsLoop decode getLen cs fuel [] suffix false).1,
           (getItemsLoop decode getLen cs fuel [] suffix false).2)) ∧
    (∀ eh hEnv, (10 : Nat) ∉ eh → decode eh = some hEnv →
       parseEnvelope decode getLen (eh ++ 10 :: (hb ++ 10 :: body)) cs =
         .ok (hEnv, ([(h, body)], none))) := by
  constructor
  · intro fuel suffix rem data hflat
    rw [getItemsLoop_flat decode getLen hLen cs hcs (fuel + 1) rem data false, hflat,
        itemsSpec_step decode getLen fuel hb body suffix h L hna hd hl hlen,
        getItemsLoop_flat decode getLen hLen cs hcs fuel [] suffix false,
        List.nil_append]
  · intro eh hEnv hneh hdeh
    have hph := parseHeadersM_flat decode false cs [] (eh ++ 10 :: (hb ++ 10 :: body)) hcs
    rw [List.nil_append, phSpec_headerLine decode false eh _ hEnv hneh hdeh] at hph
    rw [parseEnvelope, getEnvelopeHeaders]
    cases hm : parseHeadersM decode false cs [] (eh ++ 10 :: (hb ++ 10 :: body)) with
    | error e =>
      rw [hm] at hph
      simp [phFlat] at hph
    | ok v =>
      obtain ⟨ho, rem, d, eof⟩ := v
      rw [hm] at hph
      simp only [phFlat, Except.ok.injEq, Prod.mk.injEq] at hph
      obtain ⟨hh, hflat, heof⟩ := hph
      subst hh heof
      simp only []
      rw [getItemsLoop_flat decode getLen hLen cs hcs (rem.length + d.length + 1)
            rem d false,
          show rem.length + d.length + 1 = (rem ++ d).length + 1 from by
            rw [List.length_append],
          hflat]
      obtain ⟨k, hk⟩ : ∃ k, (hb ++ 10 :: body).length + 1 = k + 1 := ⟨_, rfl⟩
      rw [hk, itemsSpec_lastStep decode getLen k hb body h L hna hd hl hlen]

/-- Concrete header decoder for the C4 witness: bytes `L2` decode to a
header with `length = 2`, bytes `{}` to one without `length`. -/
def cdecodeLen : List Nat → Option (Option Nat) := fun bs =>
  if bs = [123, 125] then some none
  else if bs = [76, 50] then some (some 2)
  else none

theorem claimC4_witness :
    ((∀ h2 L2, natLen h2 = some L2 → 0 ≤ L2) ∧ (1 : Nat) ≤ 1 ∧
      (10 : Nat) ∉ ([76, 50] : List Nat) ∧ cdecodeLen [76, 50] = some (some 2) ∧
      natLen (some 2) = some ((2 : Nat) : Int) ∧ ([65, 66] : List Nat).length = 2) ∧
    parseEnvelope cdecodeLen natLen ([123, 125] ++ 10 :: ([76, 50] ++ 10 :: [65, 66])) 1 =
      .ok (none, ([(some 2, [65, 66])], none)) :=
  ⟨⟨natLen_nonneg, by decide, by decide, by decide, by decide, by decide⟩,
    (claimC4_length_item cdecodeLen natLen natLen_nonneg 1 (by decide) [76, 50] [65, 66]
        (some 2) 2 (by decide) (by decide) (by decide) (by decide)).2 [123, 125] none
      (by decide) (by decide)⟩

/-!
## Digestion pipeline (`ingest/views.py`)

`digest_event` runs under `immediate_atomic`; the database is modelled as
an explicit `World` and the body as a pure state transformer.  The
external collaborators that live outside `src/` — the rolling-window
threshold evaluator `check_for_thresholds`, `should_evict` /
`evict_for_max_events`, `issue_is_regression`, the semver library — are
abstracted as parameters bundled in `DigestEnv`: the claims treat them as
black boxes.  Timestamps are `Int`.
-/

/-- Project quota state mutated by `count_project_periods_and_act_on_it`,
plus the alert preference flags read by `digest_event`. -/
structure Project where
  digestedEventCount : Nat
  nextQuotaCheck : Nat
  quotaExceededUntil : Option Int
  alertOnNewIssue : Bool
  alertOnRegression : Bool
deriving DecidableEq, Repr

/-- Issue state read and mutated by `digest_event`
(`next_unmute_check` defaults to 0 per the squashed issues migration;
`events_at` is the newline-joined release-version ledger, kept as the
character list of the Python string). -/
structure Issue where
  id : Nat
  digestOrder : Nat
  firstSeen : Int
  lastSeen : Int
  digestedEventCount : Nat
  isMuted : Bool
  unmuteAfter : Option Int
  nextUnmuteCheck : Nat
  eventsAt : List Char
  isResolved : Bool
deriving DecidableEq, Repr

/-- The Event fields the digestion claims touch: the caller-supplied
identifier, the release version, the never-evict flag and the owning
issue. -/
structure Event where
  eventId : String
  release : String
  neverEvict : Bool
  issueId : Nat
deriving DecidableEq, Repr

inductive TPKind where
  | firstSeen
  | regressed
  | unmuted
deriving DecidableEq, Repr

/-- The `unmute_metadata` dictionaries passed to `IssueStateManager.unmute`:
`{"mute_for": {"unmute_after": ...}}` for time-based unmutes and
`{"mute_until": vbc_dict}` for volume-based ones (the vbc dict itself is
opaque, kept as a `String`). -/
inductive UnmuteMeta where
  | muteFor (unmuteAfter : Int)
  | muteUntil (vbc : String)
deriving DecidableEq, Repr

/-- Immutable audit record of an issue state change. -/
structure TurningPoint where
  kind : TPKind
  issueId : Nat
  eventId : String
  timestamp : Int
  meta : Option UnmuteMeta
deriving DecidableEq, Repr

/-- Translation of `releases.models.Release`: `isSemver`/`sortEpoch` are `Option`s since
Django leaves them `None` until `save` assigns them. -/
structure Release where
  projectId : Nat
  version : String
  dateReleased : Int
  isSemver : Option Bool
  sortEpoch : Option Int
deriving DecidableEq, Repr

/-- Alerts scheduled via `delay_on_commit`. -/
inductive Alert where
  | newIssue (issueId : Nat)
  | regression (issueId : Nat)
deriving DecidableEq, Repr

/-- The database state visible to one `digest_event` call (one project;
groupings are `(grouping_key, issue id)` pairs). -/
structure World where
  project : Project
  issues : List Issue
  groupings : List (String × Nat)
  events : List Event
  turningPoints : List TurningPoint
  releases : List Release
  pendingAlerts : List Alert
deriving DecidableEq, Repr

/-- The two exceptions `digest_event` can raise on a duplicate event id:
`ViolatedExpectation` (conflict) and Django's `ValidationError`. -/
inductive DigestErr where
  | violatedExpectation (msg : String)
  | validationError (msg : String)
deriving DecidableEq, Repr

/-- One tuple of a `check_for_thresholds` result:
`(state, below_from, check_after)` (the 4th extra-data component is
dropped for project thresholds, where the code ignores it). -/
structure ThState where
  state : Bool
  belowFrom : Int
  checkAfter : Nat
deriving DecidableEq, Repr

/-- A `check_for_thresholds` tuple for issue unmute thresholds:
`(state, until, check_after, vbc_dict)` with the vbc dict opaque. -/
structure ThUState where
  state : Bool
  belowFrom : Int
  checkAfter : Nat
  vbc : String
deriving DecidableEq, Repr

/-- The external collaborators of one `digest_event` call, abstracted:
grouping key and event id / release computed from the payload, the
eviction predicate and routine, the regression predicate, semver
validity, and the evaluator outputs for the project quota thresholds and
the issue unmute thresholds. -/
structure DigestEnv where
  groupingKey : String
  eventId : String
  eventRelease : String
  shouldEvict : Bool
  evictFn : List Event → List Event
  isRegression : Bool
  validSemver : String → Bool
  projStates : List ThState
  unmuteThresholds : List Nat
  issueStates : List ThUState

/-- The quota gate `project.quota_exceeded_until is not None and
now < project.quota_exceeded_until`, checked both in `digest_event`
(via `count_project_periods_and_act_on_it`) and in the envelope view. -/
def quotaGateActive (p : Project) (now : Int) : Bool :=
  match p.quotaExceededUntil with
  | some u => decide (now < u)
  | none => false

/-- Translation of `BaseIngestAPIView.count_project_periods_and_act_on_it`: returns the
updated project and whether further processing should happen.  When the
gate is active nothing is touched; otherwise the digested-event counter
is incremented and, only once it has reached `next_quota_check`, the
thresholds are re-evaluated: `quota_exceeded_until` becomes the latest
`below_from` among triggered thresholds (`None` if none triggered) and
`next_quota_check` becomes the new count plus
`max(1, min(check_after...))`. -/
def countProjectPeriods (states : List ThState) (p : Project) (now : Int) :
    Project × Bool :=
  if quotaGateActive p now then (p, false)
  else
    let count := p.digestedEventCount + 1
    if p.nextQuotaCheck ≤ count then
      ({p with
          digestedEventCount := count,
          quotaExceededUntil := ((states.filter (fun s => s.state)).map
            (fun s => s.belowFrom)).max?,
          nextQuotaCheck := count +
            max 1 (((states.map (fun s => s.checkAfter)).min?).getD 1)}, true)
    else
      ({p with digestedEventCount := count}, true)

/-- Modelled from the spec: `IssueStateManager.unmute` (issues app, not in
`src/`) — guarded by `if is_muted`, it clears the muted flag and records
the unmute (metadata naming what triggered it); unmuting an already
unmuted issue does nothing. -/
def ismUnmute (issue : Issue) (meta : UnmuteMeta) : Issue × List UnmuteMeta :=
  if issue.isMuted then ({issue with isMuted := false}, [meta]) else (issue, [])

/-- Translation of `BaseIngestAPIView.count_issue_periods_and_act_on_it`: when unmute
thresholds are configured and the issue's digested-event count has
reached `next_unmute_check`, re-evaluate; set `next_unmute_check`, then
walk the evaluator states and unmute on the first triggered one,
breaking immediately. -/
def countIssuePeriods (thresholds : List Nat) (states : List ThUState)
    (issue : Issue) : Issue × List UnmuteMeta :=
  if thresholds ≠ [] ∧ issue.nextUnmuteCheck ≤ issue.digestedEventCount then
    let issue1 := {issue with
      nextUnmuteCheck := issue.digestedEventCount +
        max 1 (((states.map (fun s => s.checkAfter)).min?).getD 1)}
    match states.find? (fun s => s.state) with
    | some s => ismUnmute issue1 (.muteUntil s.vbc)
    | none => (issue1, [])
  else (issue, [])

/-- Translation of
`Release.objects.filter(project=self.project).order_by("sort_epoch").last()`:
the last element (in list order) among those with the maximal
`sort_epoch`. -/
def lastBySortEpoch (l : List Release) : Option Release :=
  l.foldl (fun acc x =>
    match acc with
    | none => some x
    | some b => if b.sortEpoch.getD 0 ≤ x.sortEpoch.getD 0 then some x else some b)
    none

/-- Translation of `Release.save` from `releases/models.py`: on first save
(`is_semver is None`) compute semver validity (the semver library is
abstracted as `validSemver`) and assign `sort_epoch`: 0 with no existing
release in the project, the last epoch if validity matches the release
holding it, that epoch plus one otherwise. -/
def releaseSave (validSemver : String → Bool) (existing : List Release)
    (r : Release) : Release :=
  match r.isSemver with
  | some _ => r
  | none =>
    let sv := validSemver r.version
    match lastBySortEpoch (existing.filter (fun x => decide (x.projectId = r.projectId))) with
    | none => {r with isSemver := some sv, sortEpoch := some 0}
    | some prev =>
      if some sv = prev.isSemver then
        {r with isSemver := some sv, sortEpoch := prev.sortEpoch}
      else
        {r with isSemver := some sv, sortEpoch := some (prev.sortEpoch.getD 0 + 1)}

/-- Modelled from the spec: `create_release_if_needed` (releases app, not
in `src/`) — look up the Release for `(project, version)` or create one,
the creation going through `Release.save` (which is in `src/`).  The
world holds a single project, id 0. -/
def createReleaseIfNeeded (validSemver : String → Bool) (version : String)
    (now : Int) (releases : List Release) : List Release × Release :=
  match releases.find? (fun r => decide (r.version = version ∧ r.projectId = 0)) with
  | some r => (releases, r)
  | none =>
    let r := releaseSave validSemver releases
      { projectId := 0, version := version, dateReleased := now,
        isSemver := none, sortEpoch := none }
    (releases ++ [r], r)

/-- Python substring test (`needle in haystack`), prefix helper. -/
def isPrefixC : List Char → List Char → Bool
  | [], _ => true
  | _ :: _, [] => false
  | a :: t1, b :: t2 => decide (a = b) && isPrefixC t1 t2

/-- Python substring test (`needle in haystack`) on character lists, used
for the `release.version + "\n" not in issue.events_at` ledger check. -/
def isInfixC (needle : List Char) : List Char → Bool
  | [] => isPrefixC needle []
  | b :: t => isPrefixC needle (b :: t) || isInfixC needle t

/-- Fresh issue primary key (Django assigns a fresh id on
`Issue.objects.create`): one more than the largest id in use. -/
def freshIssueId (issues : List Issue) : Nat :=
  (issues.map (fun i => i.id)).foldr max 0 + 1

/-- The grouping lookup-or-create step of `digest_event` (lines 145-177):
no Grouping with the key → create an Issue (digest order = max existing
plus one, or 1; digested count 1) and a Grouping bound to it; otherwise
load the existing Grouping's Issue and bump last-seen / digested count
in memory (saved only at the end of the call).  Returns
(world, issue, issue_created). -/
def digestGrouping (env : DigestEnv) (now : Int) (w : World) :
    World × Issue × Bool :=
  match w.groupings.find? (fun g => decide (g.1 = env.groupingKey)) with
  | none =>
    let issue : Issue :=
      { id := freshIssueId w.issues,
        digestOrder := ((w.issues.map (fun i => i.digestOrder)).max?.getD 0) + 1,
        firstSeen := now, lastSeen := now, digestedEventCount := 1,
        isMuted := false, unmuteAfter := none, nextUnmuteCheck := 0,
        eventsAt := [], isResolved := false }
    ({w with
        issues := w.issues ++ [issue],
        groupings := w.groupings ++ [(env.groupingKey, issue.id)]}, issue, true)
  | some g =>
    let issue0 := (w.issues.find? (fun i => decide (i.id = g.2))).getD
      { id := g.2, digestOrder := 0, firstSeen := now, lastSeen := now,
        digestedEventCount := 0, isMuted := false, unmuteAfter := none,
        nextUnmuteCheck := 0, eventsAt := [], isResolved := false }
    (w, {issue0 with
          lastSeen := now,
          digestedEventCount := issue0.digestedEventCount + 1}, false)

/-- The body of `BaseIngestAPIView.digest_event` (the code inside the
`immediate_atomic` transaction), translated step by step: quota gate and
counting, grouping lookup/create, eviction pre-check, event creation
with duplicate-id handling (`Event.from_ingested` is modelled from the
spec: no event is created when the caller-supplied identifier already
exists), release association, lifecycle transitions (first-seen /
regression / time-based unmute), never-evict persistence, the events_at
ledger, per-issue unmute re-evaluation and the final issue save.  The
second component is the raised exception, if any; the world returned
with an error is the state at the moment of the raise (the transaction
wrapper `digestEvent` discards it). -/
def digestEventBody (env : DigestEnv) (now : Int) (w : World) :
    World × Option DigestErr :=
  let pr := countProjectPeriods env.projStates w.project now
  if pr.2 = false then ({w with project := pr.1}, none)
  else
    let w1 := {w with project := pr.1}
    let gr := digestGrouping env now w1
    let w2 := gr.1
    let issue := gr.2.1
    let issueCreated := gr.2.2
    let evAfter := if env.shouldEvict then env.evictFn w2.events else w2.events
    let w3 := {w2 with events := evAfter}
    match evAfter.find? (fun e => decide (e.eventId = env.eventId)) with
    | some _ =>
      if issueCreated then
        ({w3 with
            issues := w3.issues.filter (fun i => decide (i.id ≠ issue.id)),
            groupings := w3.groupings.filter (fun g => decide (g.2 ≠ issue.id))},
         some (.violatedExpectation "no event created, but issue created"))
      else
        (w3, some (.validationError "Event already exists"))
    | none =>
      let ev0 : Event := { eventId := env.eventId, release := env.eventRelease,
                           neverEvict := false, issueId := issue.id }
      let w4 := {w3 with events := w3.events ++ [ev0]}
      let cr := createReleaseIfNeeded env.validSemver env.eventRelease now w4.releases
      let w5 := {w4 with releases := cr.1}
      let base :=
        if issueCreated then
          ({w5 with
             turningPoints := w5.turningPoints ++
               [{ kind := .firstSeen, issueId := issue.id, eventId := ev0.eventId,
                  timestamp := now, meta := none }],
             pendingAlerts := w5.pendingAlerts ++
               (if w1.project.alertOnNewIssue then [Alert.newIssue issue.id] else [])},
            issue, {ev0 with neverEvict := true})
        else
          let rg :=
            if env.isRegression then
              ({w5 with
                 turningPoints := w5.turningPoints ++
                   [{ kind := .regressed, issueId := issue.id, eventId := ev0.eventId,
                      timestamp := now, meta := none }],
                 pendingAlerts := w5.pendingAlerts ++
                   (if w1.project.alertOnRegression then [Alert.regression issue.id]
                    else [])},
                {issue with isResolved := false}, {ev0 with neverEvict := true})
            else (w5, issue, ev0)
          match rg.2.1.unmuteAfter with
          | some t =>
            if rg.2.1.isMuted ∧ t < now then
              let um := ismUnmute rg.2.1 (.muteFor t)
              ({rg.1 with
                  turningPoints := rg.1.turningPoints ++ um.2.map (fun m =>
                    ({ kind := .unmuted, issueId := rg.2.1.id,
                       eventId := rg.2.2.eventId, timestamp := now,
                       meta := some m } : TurningPoint))},
               um.1, rg.2.2)
            else rg
          | none => rg
      let w6 := base.1
      let issue2 := base.2.1
      let ev1 := base.2.2
      let w7 :=
        if ev1.neverEvict then
          {w6 with
            events := w6.events.map
              (fun e => if decide (e.eventId = ev1.eventId) then ev1 else e)}
        else w6
      let verLine := cr.2.version.data ++ [Char.ofNat 10]
      let issue3 :=
        if isInfixC verLine issue2.eventsAt then issue2
        else {issue2 with eventsAt := issue2.eventsAt ++ verLine}
      let ci := countIssuePeriods env.unmuteThresholds env.issueStates issue3
      let w8 := {w7 with
        turningPoints := w7.turningPoints ++ ci.2.map (fun m =>
          ({ kind := .unmuted, issueId := issue3.id,
             eventId := ev1.eventId, timestamp := now,
             meta := some m } : TurningPoint))}
      let w9 := {w8 with
        issues := w8.issues.map
          (fun i => if decide (i.id = issue3.id) then ci.1 else i)}
      (w9, none)

/-- Translation of `digest_event` as seen by callers: the body under `immediate_atomic` —
an exception rolls back every mutation, leaving the world unchanged. -/
def digestEvent (env : DigestEnv) (now : Int) (w : World) :
    World × Option DigestErr :=
  let r := digestEventBody env now w
  match r.2 with
  | some e => (w, some e)
  | none => r

theorem intMax?_eq_some_iff (l : List Int) (a : Int) :
    l.max? = some a ↔ a ∈ l ∧ ∀ b ∈ l, b ≤ a := by
  haveI : Std.Antisymm (fun (x1 x2 : Int) => x1 ≤ x2) :=
    ⟨fun h1 h2 => Int.le_antisymm h1 h2⟩
  exact List.max?_eq_some_iff (fun _ => le_refl _) (fun _ _ => max_choice _ _)
    (fun _ _ _ => max_le_iff)

theorem natMin?_eq_some_iff (l : List Nat) (a : Nat) :
    l.min? = some a ↔ a ∈ l ∧ ∀ b ∈ l, a ≤ b := by
  haveI : Std.Antisymm (fun (x1 x2 : Nat) => x1 ≤ x2) :=
    ⟨fun h1 h2 => Nat.le_antisymm h1 h2⟩
  exact List.min?_eq_some_iff (fun _ => le_refl _) (fun _ _ => min_choice _ _)
    (fun _ _ _ => le_min_iff)

theorem le_foldr_max (l : List Nat) : ∀ x ∈ l, x ≤ l.foldr max 0 := by
  induction l with
  | nil => simp
  | cons a t ih =>
    intro x hx
    simp only [List.foldr_cons]
    rcases List.mem_cons.1 hx with h | h
    · subst h
      exact le_max_left ..
    · exact le_trans (ih x h) (le_max_right ..)

theorem freshIssueId_not_mem (issues : List Issue) :
    ∀ i ∈ issues, i.id ≠ freshIssueId issues := by
  intro i hi heq
  have hle : i.id ≤ (issues.map (fun j => j.id)).foldr max 0 :=
    le_foldr_max _ _ (List.mem_map_of_mem _ hi)
  rw [freshIssueId] at heq
  omega

theorem find?_first {α : Type} (p : α → Bool) (pre post : List α) (s : α)
    (hpre : ∀ x ∈ pre, p x = false) (hs : p s = true) :
    (pre ++ s :: post).find? p = some s := by
  induction pre with
  | nil => simp [List.find?_cons, hs]
  | cons a t ih =>
    rw [List.cons_append, List.find?_cons, hpre a (by simp)]
    exact ih (fun x hx => hpre x (List.mem_cons_of_mem a hx))

/-- Claim C6: when the project's `quota_exceeded_until` is set and the
current timestamp is before it, `digest_event` returns immediately: no
Event, Issue, Grouping, TurningPoint, Release (or alert) is created,
and no counter changes — `digested_event_count`, `next_quota_check` and
`quota_exceeded_until` are all left as they were.  The whole world is
returned unchanged, by the body and by the transaction wrapper alike. -/
theorem claimC6_quota_gate (env : DigestEnv) (now : Int) (w : World) (u : Int)
    (hq : w.project.quotaExceededUntil = some u) (hnow : now < u) :
    digestEventBody env now w = (w, none) ∧ digestEvent env now w = (w, none) := by
  have hgate : quotaGateActive w.project now = true := by
    rw [quotaGateActive, hq]
    simp [hnow]
  have hcp : countProjectPeriods env.projStates w.project now = (w.project, false) := by
    rw [countProjectPeriods, if_pos hgate]
  have h1 : digestEventBody env now w = (w, none) := by
    simp [digestEventBody, hcp]
  refine ⟨h1, ?_⟩
  simp [digestEvent, h1]

def cproject : Project :=
  { digestedEventCount := 5, nextQuotaCheck := 10, quotaExceededUntil := some 10,
    alertOnNewIssue := true, alertOnRegression := false }

def cworld : World :=
  { project := cproject, issues := [], groupings := [],
    events := [{ eventId := "e1", release := "1.0", neverEvict := false, issueId := 7 }],
    turningPoints := [], releases := [], pendingAlerts := [] }

def cenv : DigestEnv :=
  { groupingKey := "k", eventId := "e1", eventRelease := "1.0", shouldEvict := false,
    evictFn := id, isRegression := false, validSemver := fun _ => true,
    projStates := [], unmuteThresholds := [], issueStates := [] }

theorem claimC6_witness :
    cworld.project.quotaExceededUntil = some 10 ∧ (5 : Int) < 10 ∧
    (digestEventBody cenv 5 cworld = (cworld, none) ∧
      digestEvent cenv 5 cworld = (cworld, none)) :=
  ⟨rfl, by decide, claimC6_quota_gate cenv 5 cworld 10 rfl (by decide)⟩

/-- Claim C7: with the quota gate inactive, the rolling-window thresholds
are re-evaluated only when the incremented `digested_event_count` has
reached `next_quota_check` (below it, only the counter changes and the
call still allows processing).  On re-evaluation `quota_exceeded_until`
becomes the latest window boundary among triggered thresholds — `None`
exactly when none triggered — and `next_quota_check` becomes the current
count plus the minimum recheck distance over all thresholds, floored
at 1. -/
theorem claimC7_quota_recheck (states : List ThState) (p : Project) (now : Int)
    (hgate : quotaGateActive p now = false) :
    (p.digestedEventCount + 1 < p.nextQuotaCheck →
       countProjectPeriods states p now =
         ({p with digestedEventCount := p.digestedEventCount + 1}, true)) ∧
    (p.nextQuotaCheck ≤ p.digestedEventCount + 1 →
       (countProjectPeriods states p now).2 = true ∧
       (countProjectPeriods states p now).1.digestedEventCount =
         p.digestedEventCount + 1 ∧
       ((countProjectPeriods states p now).1.quotaExceededUntil = none ↔
         ∀ s ∈ states, s.state = false) ∧
       (∀ u, (countProjectPeriods states p now).1.quotaExceededUntil = some u →
         (∃ s ∈ states, s.state = true ∧ s.belowFrom = u) ∧
         ∀ s ∈ states, s.state = true → s.belowFrom ≤ u) ∧
       (countProjectPeriods states p now).1.nextQuotaCheck =
         (p.digestedEventCount + 1) +
           max 1 (((states.map (fun s => s.checkAfter)).min?).getD 1) ∧
       (∀ a, (countProjectPeriods states p now).1.nextQuotaCheck =
           (p.digestedEventCount + 1) + a →
         1 ≤ a ∧ ∀ s ∈ states, a ≤ max 1 s.checkAfter)) := by
  constructor
  · intro hlt
    rw [countProjectPeriods, if_neg (by simp [hgate])]
    simp only []
    rw [if_neg (by omega)]
  · intro hge
    have hc : countProjectPeriods states p now =
        ({p with
           digestedEventCount := p.digestedEventCount + 1,
           quotaExceededUntil := ((states.filter (fun s => s.state)).map
             (fun s => s.belowFrom)).max?,
           nextQuotaCheck := (p.digestedEventCount + 1) +
             max 1 (((states.map (fun s => s.checkAfter)).min?).getD 1)}, true) := by
      rw [countProjectPeriods, if_neg (by simp [hgate])]
      simp only []
      rw [if_pos hge]
    rw [hc]
    refine ⟨rfl, rfl, ?_, ?_, rfl, ?_⟩
    · simp only []
      rw [List.max?_eq_none_iff, List.map_eq_nil_iff, List.filter_eq_nil_iff]
      constructor
      · intro hf s hsm
        have := hf s hsm
        simp at this
        exact this
      · intro hf s hsm hp
        rw [hf s hsm] at hp
        simp at hp
    · intro u hu
      simp only [] at hu
      rw [intMax?_eq_some_iff] at hu
      obtain ⟨hmem, hbound⟩ := hu
      constructor
      · obtain ⟨s, hsf, hsu⟩ := List.mem_map.1 hmem
        obtain ⟨hsm, hsp⟩ := List.mem_filter.1 hsf
        exact ⟨s, hsm, hsp, hsu⟩
      · intro s hsm hst
        exact hbound _ (List.mem_map_of_mem _ (List.mem_filter.2 ⟨hsm, hst⟩))
    · intro a ha
      simp only [] at ha
      have haeq : a = max 1 (((states.map (fun s => s.checkAfter)).min?).getD 1) := by
        omega
      subst haeq
      refine ⟨le_max_left .., ?_⟩
      intro s hsm
      cases hmin : (states.map (fun s => s.checkAfter)).min? with
      | none =>
        exact absurd (List.map_eq_nil_iff.1 (List.min?_eq_none_iff.1 hmin) ▸ hsm)
          (List.not_mem_nil s)
      | some m =>
        simp only [Option.getD_some]
        obtain ⟨hm, hb⟩ := (natMin?_eq_some_iff _ m).1 hmin
        exact max_le_max (le_refl 1) (hb _ (List.mem_map_of_mem _ hsm))

def cproj7 : Project :=
  { digestedEventCount := 9, nextQuotaCheck := 10, quotaExceededUntil := none,
    alertOnNewIssue := false, alertOnRegression := false }

def cstates7 : List ThState := [⟨true, 30, 4⟩, ⟨false, 99, 2⟩]

theorem claimC7_witness :
    quotaGateActive cproj7 0 = false ∧
    ((cproj7.digestedEventCount + 1 < cproj7.nextQuotaCheck →
       countProjectPeriods cstates7 cproj7 0 =
         ({cproj7 with digestedEventCount := cproj7.digestedEventCount + 1}, true)) ∧
     (cproj7.nextQuotaCheck ≤ cproj7.digestedEventCount + 1 →
       (countProjectPeriods cstates7 cproj7 0).2 = true ∧
       (countProjectPeriods cstates7 cproj7 0).1.digestedEventCount =
         cproj7.digestedEventCount + 1 ∧
       ((countProjectPeriods cstates7 cproj7 0).1.quotaExceededUntil = none ↔
         ∀ s ∈ cstates7, s.state = false) ∧
       (∀ u, (countProjectPeriods cstates7 cproj7 0).1.quotaExceededUntil = some u →
         (∃ s ∈ cstates7, s.state = true ∧ s.belowFrom = u) ∧
         ∀ s ∈ cstates7, s.state = true → s.belowFrom ≤ u) ∧
       (countProjectPeriods cstates7 cproj7 0).1.nextQuotaCheck =
         (cproj7.digestedEventCount + 1) +
           max 1 (((cstates7.map (fun s => s.checkAfter)).min?).getD 1) ∧
       (∀ a, (countProjectPeriods cstates7 cproj7 0).1.nextQuotaCheck =
           (cproj7.digestedEventCount + 1) + a →
         1 ≤ a ∧ ∀ s ∈ cstates7, a ≤ max 1 s.checkAfter))) :=
  ⟨rfl, claimC7_quota_recheck cstates7 cproj7 0 rfl⟩

theorem issues_filter_fresh (issues : List Issue) (newIssue : Issue)
    (hid : newIssue.id = freshIssueId issues) :
    (issues ++ [newIssue]).filter (fun i => decide (i.id ≠ newIssue.id)) = issues := by
  rw [List.filter_append]
  have h1 : issues.filter (fun i => decide (i.id ≠ newIssue.id)) = issues :=
    List.filter_eq_self.2 (fun i hi => by
      simp only [decide_eq_true_eq]
      rw [hid]
      exact freshIssueId_not_mem issues i hi)
  have h2 : [newIssue].filter (fun i => decide (i.id ≠ newIssue.id)) = [] := by
    simp
  rw [h1, h2, List.append_nil]

theorem countProjectPeriods_snd (states : List ThState) (p : Project) (now : Int)
    (hgate : quotaGateActive p now = false) :
    (countProjectPeriods states p now).2 = true := by
  rw [countProjectPeriods, if_neg (by simp [hgate])]
  simp only []
  split <;> rfl

/-- Claim C8: when the caller-supplied event identifier already exists,
no new Event is created.  If the same call had just created a brand-new
Issue (fresh grouping key), that Issue is deleted again and a
`ViolatedExpectation` conflict is raised; otherwise (the grouping — and
hence the issue — pre-existed) a duplicate-identifier `ValidationError`
is raised.  In both branches the stored issues are exactly the ones from
before the call and the stored events are exactly the (possibly evicted)
pre-existing events. -/
theorem claimC8_duplicate_event (env : DigestEnv) (now : Int) (w : World)
    (hgate : quotaGateActive w.project now = false)
    (hdup : ∃ e ∈ (if env.shouldEvict then env.evictFn w.events else w.events),
       e.eventId = env.eventId) :
    ((∀ g ∈ w.groupings, g.1 ≠ env.groupingKey) →
       (digestEventBody env now w).2 =
         some (.violatedExpectation "no event created, but issue created") ∧
       (digestEventBody env now w).1.issues = w.issues ∧
       (digestEventBody env now w).1.events =
         (if env.shouldEvict then env.evictFn w.events else w.events)) ∧
    ((∃ g ∈ w.groupings, g.1 = env.groupingKey) →
       (digestEventBody env now w).2 = some (.validationError "Event already exists") ∧
       (digestEventBody env now w).1.issues = w.issues ∧
       (digestEventBody env now w).1.events =
         (if env.shouldEvict then env.evictFn w.events else w.events)) := by
  have hsnd := countProjectPeriods_snd env.projStates w.project now hgate
  obtain ⟨e, he, hid⟩ := hdup
  have hfs : ((if env.shouldEvict then env.evictFn w.events else w.events).find?
      (fun x => decide (x.eventId = env.eventId))).isSome :=
    List.find?_isSome.2 ⟨e, he, by simp [hid]⟩
  obtain ⟨ev, hfe⟩ := Option.isSome_iff_exists.1 hfs
  constructor
  · intro hfresh
    have hfg : w.groupings.find? (fun g => decide (g.1 = env.groupingKey)) = none :=
      List.find?_eq_none.2 (fun g hg => by simp [hfresh g hg])
    refine ⟨?_, ?_, ?_⟩
    · simp [digestEventBody, hsnd, digestGrouping, hfg, hfe]
    · simp only [digestEventBody, hsnd, digestGrouping, hfg, hfe]
      simp only [Bool.true_eq_false, if_false, if_true]
      exact issues_filter_fresh w.issues
        { id := freshIssueId w.issues,
          digestOrder := (List.map (fun i => i.digestOrder) w.issues).max?.getD 0 + 1,
          firstSeen := now, lastSeen := now, digestedEventCount := 1,
          isMuted := false, unmuteAfter := none, nextUnmuteCheck := 0,
          eventsAt := [], isResolved := false } rfl
    · simp [digestEventBody, hsnd, digestGrouping, hfg, hfe]
  · intro hexists
    obtain ⟨g, hg, hgk⟩ := hexists
    have hfs2 : (w.groupings.find? (fun x => decide (x.1 = env.groupingKey))).isSome :=
      List.find?_isSome.2 ⟨g, hg, by simp [hgk]⟩
    obtain ⟨g2, hfg⟩ := Option.isSome_iff_exists.1 hfs2
    refine ⟨?_, ?_, ?_⟩
    · simp [digestEventBody, hsnd, digestGrouping, hfg, hfe]
    · simp [digestEventBody, hsnd, digestGrouping, hfg, hfe]
    · simp [digestEventBody, hsnd, digestGrouping, hfg, hfe]

def cproj8 : Project :=
  { digestedEventCount := 5, nextQuotaCheck := 10, quotaExceededUntil := none,
    alertOnNewIssue := true, alertOnRegression := false }

def cworld8 : World :=
  { project := cproj8, issues := [], groupings := [],
    events := [{ eventId := "e1", release := "1.0", neverEvict := false, issueId := 7 }],
    turningPoints := [], releases := [], pendingAlerts := [] }

theorem claimC8_witness :
    quotaGateActive cworld8.project 5 = false ∧
    (∃ e ∈ (if cenv.shouldEvict then cenv.evictFn cworld8.events else cworld8.events),
       e.eventId = cenv.eventId) ∧
    (((∀ g ∈ cworld8.groupings, g.1 ≠ cenv.groupingKey) →
       (digestEventBody cenv 5 cworld8).2 =
         some (.violatedExpectation "no event created, but issue created") ∧
       (digestEventBody cenv 5 cworld8).1.issues = cworld8.issues ∧
       (digestEventBody cenv 5 cworld8).1.events =
         (if cenv.shouldEvict then cenv.evictFn cworld8.events else cworld8.events)) ∧
     ((∃ g ∈ cworld8.groupings, g.1 = cenv.groupingKey) →
       (digestEventBody cenv 5 cworld8).2 =
         some (.validationError "Event already exists") ∧
       (digestEventBody cenv 5 cworld8).1.issues = cworld8.issues ∧
       (digestEventBody cenv 5 cworld8).1.events =
         (if cenv.shouldEvict then cenv.evictFn cworld8.events else cworld8.events))) :=
  ⟨rfl, ⟨{ eventId := "e1", release := "1.0", neverEvict := false, issueId := 7 },
      by simp [cworld8, cenv], by simp [cenv]⟩,
    claimC8_duplicate_event cenv 5 cworld8 rfl
      ⟨{ eventId := "e1", release := "1.0", neverEvict := false, issueId := 7 },
        by simp [cworld8, cenv], by simp [cenv]⟩⟩

/-- Claim C9: per-issue unmute re-evaluation runs only once the issue's
digested-event count has reached `next_unmute_check` (below it the issue
is untouched and nothing is recorded).  When it runs and thresholds are
configured, the first triggered evaluator state — and only it — unmutes
the issue, recording exactly that state's vbc dict in the unmute
metadata; later states are never acted on, and the event counter itself
is not changed by the re-evaluation. -/
theorem claimC9_unmute_first (thresholds : List Nat) (states : List ThUState)
    (issue : Issue) :
    (issue.digestedEventCount < issue.nextUnmuteCheck →
       countIssuePeriods thresholds states issue = (issue, [])) ∧
    (∀ pre s post, states = pre ++ s :: post → (∀ x ∈ pre, x.state = false) →
       s.state = true → thresholds ≠ [] →
       issue.nextUnmuteCheck ≤ issue.digestedEventCount →
       (countIssuePeriods thresholds states issue).1.isMuted = false ∧
       (countIssuePeriods thresholds states issue).2 =
         (if issue.isMuted then [UnmuteMeta.muteUntil s.vbc] else []) ∧
       (countIssuePeriods thresholds states issue).1.digestedEventCount =
         issue.digestedEventCount ∧
       (countIssuePeriods thresholds states issue).1.nextUnmuteCheck =
         issue.digestedEventCount +
           max 1 (((states.map (fun x => x.checkAfter)).min?).getD 1)) := by
  constructor
  · intro hlt
    rw [countIssuePeriods, if_neg (fun hand => absurd hand.2 (by omega))]
  · intro pre s2 post hst hpre hs hth hge
    have hfind : states.find? (fun x => x.state) = some s2 := by
      rw [hst]
      exact find?_first _ pre post s2 hpre hs
    have hc : countIssuePeriods thresholds states issue =
        ismUnmute {issue with
          nextUnmuteCheck := issue.digestedEventCount +
            max 1 (((states.map (fun x => x.checkAfter)).min?).getD 1)}
          (.muteUntil s2.vbc) := by
      simp only [countIssuePeriods, if_pos (And.intro hth hge), hfind]
    rw [hc, ismUnmute]
    by_cases hm : issue.isMuted = true
    · simp [hm]
    · simp at hm
      simp [hm]

def cissue9 : Issue :=
  { id := 1, digestOrder := 1, firstSeen := 0, lastSeen := 0,
    digestedEventCount := 8, isMuted := true, unmuteAfter := none,
    nextUnmuteCheck := 4, eventsAt := [], isResolved := false }

def cstates9 : List ThUState := [⟨false, 0, 3, "a"⟩, ⟨true, 0, 5, "b"⟩, ⟨true, 0, 7, "c"⟩]

theorem claimC9_witness :
    (cissue9.digestedEventCount < cissue9.nextUnmuteCheck →
       countIssuePeriods [2] cstates9 cissue9 = (cissue9, [])) ∧
    (cstates9 = [⟨false, 0, 3, "a"⟩] ++ (⟨true, 0, 5, "b"⟩ : ThUState) ::
        [⟨true, 0, 7, "c"⟩] ∧
     (∀ x ∈ [(⟨false, 0, 3, "a"⟩ : ThUState)], x.state = false) ∧
     (⟨true, 0, 5, "b"⟩ : ThUState).state = true ∧ ([2] : List Nat) ≠ [] ∧
     cissue9.nextUnmuteCheck ≤ cissue9.digestedEventCount ∧
     ((countIssuePeriods [2] cstates9 cissue9).1.isMuted = false ∧
      (countIssuePeriods [2] cstates9 cissue9).2 =
        (if cissue9.isMuted then [UnmuteMeta.muteUntil "b"] else []) ∧
      (countIssuePeriods [2] cstates9 cissue9).1.digestedEventCount =
        cissue9.digestedEventCount ∧
      (countIssuePeriods [2] cstates9 cissue9).1.nextUnmuteCheck =
        cissue9.digestedEventCount +
          max 1 (((cstates9.map (fun x => x.checkAfter)).min?).getD 1))) :=
  ⟨(claimC9_unmute_first [2] cstates9 cissue9).1,
    by decide, by decide, by decide, by decide, by decide,
    (claimC9_unmute_first [2] cstates9 cissue9).2 [⟨false, 0, 3, "a"⟩]
      ⟨true, 0, 5, "b"⟩ [⟨true, 0, 7, "c"⟩] (by decide) (by decide) (by decide)
      (by decide) (by decide)⟩

theorem lastBySortEpoch_aux (l : List Release) :
    ∀ a : Release,
      ∃ prev, (l.foldl (fun acc x =>
          match acc with
          | none => some x
          | some b => if b.sortEpoch.getD 0 ≤ x.sortEpoch.getD 0 then some x
                      else some b) (some a)) = some prev ∧
        (prev ∈ l ∨ prev = a) ∧ a.sortEpoch.getD 0 ≤ prev.sortEpoch.getD 0 ∧
        ∀ x ∈ l, x.sortEpoch.getD 0 ≤ prev.sortEpoch.getD 0 := by
  induction l with
  | nil =>
    intro a
    exact ⟨a, rfl, Or.inr rfl, le_refl _, by simp⟩
  | cons x t ih =>
    intro a
    rw [List.foldl_cons]
    by_cases hx : a.sortEpoch.getD 0 ≤ x.sortEpoch.getD 0
    · obtain ⟨prev, h1, h2, h3, h4⟩ := ih x
      rw [show (match some a with
          | none => some x
          | some b => if b.sortEpoch.getD 0 ≤ x.sortEpoch.getD 0 then some x
                      else some b) = some x from by simp [hx]]
      refine ⟨prev, h1, ?_, le_trans hx h3, ?_⟩
      · rcases h2 with h | h
        · exact Or.inl (List.mem_cons_of_mem x h)
        · exact Or.inl (h ▸ List.mem_cons_self x t)
      · intro y hy
        rcases List.mem_cons.1 hy with h | h
        · exact h ▸ h3
        · exact h4 y h
    · obtain ⟨prev, h1, h2, h3, h4⟩ := ih a
      rw [show (match some a with
          | none => some x
          | some b => if b.sortEpoch.getD 0 ≤ x.sortEpoch.getD 0 then some x
                      else some b) = some a from by simp [hx]]
      refine ⟨prev, h1, ?_, h3, ?_⟩
      · rcases h2 with h | h
        · exact Or.inl (List.mem_cons_of_mem x h)
        · exact Or.inr h
      · intro y hy
        rcases List.mem_cons.1 hy with h | h
        · subst h
          exact le_trans (le_of_not_le hx) h3
        · exact h4 y h

theorem lastBySortEpoch_spec (l : List Release) (hl : l ≠ []) :
    ∃ prev ∈ l, lastBySortEpoch l = some prev ∧
      ∀ x ∈ l, x.sortEpoch.getD 0 ≤ prev.sortEpoch.getD 0 := by
  cases l with
  | nil => exact absurd rfl hl
  | cons a t =>
    obtain ⟨prev, h1, h2, h3, h4⟩ := lastBySortEpoch_aux t a
    refine ⟨prev, ?_, ?_, ?_⟩
    · rcases h2 with h | h
      · exact List.mem_cons_of_mem a h
      · exact h ▸ List.mem_cons_self a t
    · rw [lastBySortEpoch, List.foldl_cons]
      exact h1
    · intro x hx
      rcases List.mem_cons.1 hx with h | h
      · exact h ▸ h3
      · exact h4 x h

theorem lastBySortEpoch_nil : lastBySortEpoch [] = none := rfl

/-- The releases of `r`'s project among the stored ones: the
`Release.objects.filter(project=self.project)` queryset in
`Release.save`. -/
def sameProjectReleases (existing : List Release) (r : Release) : List Release :=
  existing.filter (fun x => decide (x.projectId = r.projectId))

/-- Claim C10: at first save (`is_semver` unset) `Release.save` computes
`is_semver` and assigns `sort_epoch`: 0 when the project has no releases
yet; otherwise there is a release `prev` holding the highest existing
`sort_epoch` (the `order_by("sort_epoch").last()` pick) such that the new
epoch is `prev`'s epoch when the new release's semver validity equals
`prev`'s and that epoch plus one when it differs.  Consequently the
assigned epoch is at least every existing epoch in the project, so
`sort_epoch` never decreases across successive release creations. -/
theorem claimC10_sort_epoch (validSemver : String → Bool) (existing : List Release)
    (r : Release) (hNew : r.isSemver = none)
    (hSaved : ∀ x ∈ existing, x.sortEpoch.isSome ∧ x.isSemver.isSome) :
    (releaseSave validSemver existing r).isSemver = some (validSemver r.version) ∧
    (sameProjectReleases existing r = [] →
       (releaseSave validSemver existing r).sortEpoch = some 0) ∧
    (sameProjectReleases existing r ≠ [] →
       ∃ prev ∈ sameProjectReleases existing r, ∃ pe pb,
         prev.sortEpoch = some pe ∧ prev.isSemver = some pb ∧
         (∀ x ∈ sameProjectReleases existing r, ∀ xe, x.sortEpoch = some xe → xe ≤ pe) ∧
         (releaseSave validSemver existing r).sortEpoch =
           some (if validSemver r.version = pb then pe else pe + 1)) ∧
    (∀ x ∈ sameProjectReleases existing r, ∀ xe se, x.sortEpoch = some xe →
       (releaseSave validSemver existing r).sortEpoch = some se → xe ≤ se) := by
  by_cases hsp : sameProjectReleases existing r = []
  · have hsave : releaseSave validSemver existing r =
        {r with isSemver := some (validSemver r.version), sortEpoch := some 0} := by
      rw [releaseSave, hNew]
      simp only []
      rw [show existing.filter (fun x => decide (x.projectId = r.projectId)) =
            sameProjectReleases existing r from rfl, hsp, lastBySortEpoch_nil]
    refine ⟨by rw [hsave], fun _ => by rw [hsave], fun hne => absurd hsp hne, ?_⟩
    intro x hx
    rw [hsp] at hx
    exact absurd hx (List.not_mem_nil x)
  · obtain ⟨prev, hmem, hlast, hmax⟩ := lastBySortEpoch_spec _ hsp
    have hsub : prev ∈ existing := (List.mem_filter.1 hmem).1
    obtain ⟨hse, hsv⟩ := hSaved prev hsub
    obtain ⟨pe, hpe⟩ := Option.isSome_iff_exists.1 hse
    obtain ⟨pb, hpb⟩ := Option.isSome_iff_exists.1 hsv
    have hsave : releaseSave validSemver existing r =
        (if validSemver r.version = pb then
          {r with isSemver := some (validSemver r.version), sortEpoch := some pe}
         else
          {r with isSemver := some (validSemver r.version), sortEpoch := some (pe + 1)}) := by
      by_cases hv : validSemver r.version = pb
      · rw [if_pos hv, releaseSave, hNew]
        simp only []
        rw [show existing.filter (fun x => decide (x.projectId = r.projectId)) =
              sameProjectReleases existing r from rfl, hlast]
        simp only []
        rw [if_pos (show some (validSemver r.version) = prev.isSemver from by
              rw [hpb, hv]), hpe]
      · rw [if_neg hv, releaseSave, hNew]
        simp only []
        rw [show existing.filter (fun x => decide (x.projectId = r.projectId)) =
              sameProjectReleases existing r from rfl, hlast]
        simp only []
        rw [if_neg (show ¬ some (validSemver r.version) = prev.isSemver from by
              rw [hpb]; simp [hv]), hpe]
        simp
    have hmax2 : ∀ x ∈ sameProjectReleases existing r, ∀ xe,
        x.sortEpoch = some xe → xe ≤ pe := by
      intro x hx xe hxe
      have := hmax x hx
      rw [hxe, hpe] at this
      simpa using this
    refine ⟨?_, fun he => absurd he hsp, ?_, ?_⟩
    · rw [hsave]
      by_cases hv : validSemver r.version = pb
      · rw [if_pos hv]
      · rw [if_neg hv]
    · intro _
      refine ⟨prev, hmem, pe, pb, hpe, hpb, hmax2, ?_⟩
      rw [hsave]
      by_cases hv : validSemver r.version = pb
      · rw [if_pos hv, if_pos hv]
      · rw [if_neg hv, if_neg hv]
    · intro x hx xe se hxe hres
      rw [hsave] at hres
      have hxle := hmax2 x hx xe hxe
      by_cases hv : validSemver r.version = pb
      · rw [if_pos hv] at hres
        simp only [Option.some.injEq] at hres
        omega
      · rw [if_neg hv] at hres
        simp only [Option.some.injEq] at hres
        omega

def crel10a : Release :=
  { projectId := 0, version := "0.9", dateReleased := 0, isSemver := some false,
    sortEpoch := some 3 }

def crel10b : Release :=
  { projectId := 0, version := "1.0.0", dateReleased := 5, isSemver := none,
    sortEpoch := none }

theorem claimC10_witness :
    crel10b.isSemver = none ∧
    (∀ x ∈ [crel10a], x.sortEpoch.isSome ∧ x.isSemver.isSome) ∧
    ((releaseSave (fun v => decide (v = "1.0.0")) [crel10a] crel10b).isSemver =
       some (decide ("1.0.0" = "1.0.0")) ∧
     (sameProjectReleases [crel10a] crel10b = [] →
       (releaseSave (fun v => decide (v = "1.0.0")) [crel10a] crel10b).sortEpoch =
         some 0) ∧
     (sameProjectReleases [crel10a] crel10b ≠ [] →
       ∃ prev ∈ sameProjectReleases [crel10a] crel10b, ∃ pe pb,
         prev.sortEpoch = some pe ∧ prev.isSemver = some pb ∧
         (∀ x ∈ sameProjectReleases [crel10a] crel10b, ∀ xe,
           x.sortEpoch = some xe → xe ≤ pe) ∧
         (releaseSave (fun v => decide (v = "1.0.0")) [crel10a] crel10b).sortEpoch =
           some (if decide ("1.0.0" = "1.0.0") = pb then pe else pe + 1)) ∧
     (∀ x ∈ sameProjectReleases [crel10a] crel10b, ∀ xe se, x.sortEpoch = some xe →
       (releaseSave (fun v => decide (v = "1.0.0")) [crel10a] crel10b).sortEpoch =
         some se → xe ≤ se)) :=
  ⟨rfl, by decide,
    claimC10_sort_epoch (fun v => decide (v = "1.0.0")) [crel10a] crel10b rfl
      (by decide)⟩

theorem nlSplit_some_length (d o r : List Nat) (h : nlSplit d = some (o, r)) :
    d.length = o.length + 1 + r.length := by
  induction d generalizing o r with
  | nil => simp [nlSplit] at h
  | cons b t ih =>
    by_cases hb : b = 10
    · simp [nlSplit, hb] at h
      obtain ⟨ho, hr⟩ := h
      subst ho hr
      simp only [List.length_cons, List.length_nil]
      omega
    · simp only [nlSplit, hb, if_false, Option.map_eq_some'] at h
      obtain ⟨p, hp, hbp⟩ := h
      obtain ⟨po, pr⟩ := p
      simp only [Prod.mk.injEq] at hbp
      obtain ⟨hbo, hbr⟩ := hbp
      subst hbo hbr
      have := ih po pr hp
      simp
      omega

theorem phSpec_some_length {H : Type} (decode : List Nat → Option H) (d : List Nat)
    (h2 : H) (d' : List Nat) (eof' : Bool)
    (h : phSpec decode true d = .ok (some h2, d', eof')) : d'.length < d.length := by
  rw [phSpec] at h
  cases hc : nlSplit d with
  | some p =>
    obtain ⟨o, r⟩ := p
    rw [hc] at h
    simp only [] at h
    cases hd : decode o with
    | some hh =>
      rw [hd] at h
      simp only [Except.ok.injEq, Prod.mk.injEq] at h
      obtain ⟨-, hr, -⟩ := h
      subst hr
      have := nlSplit_some_length d o r hc
      omega
    | none =>
      rw [hd] at h
      simp at h
  | none =>
    rw [hc] at h
    by_cases hd : d = []
    · simp [hd] at h
    · simp [hd] at h

theorem pySliceFrom_length_le (l : List Nat) (i : Int) :
    (pySliceFrom l i).length ≤ l.length := by
  rw [pySliceFrom]
  split <;> simp [List.length_drop]

theorem ruSpec_ok_length (f : Finder) (d o rest : List Nat) (e : Bool)
    (h : ruSpec f d = .ok (o, rest, e)) : rest.length ≤ d.length := by
  cases f with
  | newline =>
    rw [ruSpec] at h
    cases hc : nlSplit d with
    | some p =>
      obtain ⟨po, pr⟩ := p
      rw [hc] at h
      simp only [Except.ok.injEq, Prod.mk.injEq] at h
      obtain ⟨-, hr, -⟩ := h
      subst hr
      have := nlSplit_some_length d po pr hc
      omega
    | none =>
      rw [hc] at h
      simp only [Except.ok.injEq, Prod.mk.injEq] at h
      obtain ⟨-, hr, -⟩ := h
      subst hr
      simp
  | length target count msg =>
    rw [ruSpec] at h
    by_cases hcond : target - count ≤ (d.length : Int)
    · rw [if_pos hcond] at h
      simp only [Except.ok.injEq, Prod.mk.injEq] at h
      obtain ⟨-, hr, -⟩ := h
      subst hr
      exact pySliceFrom_length_le d (target - count)
    · rw [if_neg hcond] at h
      simp at h

theorem itemsSpec_fuel_stable {H : Type} (decode : List Nat → Option H)
    (getLen : H → Option Int) :
    ∀ fuel d atEof, d.length < fuel →
      itemsSpec decode getLen (fuel + 1) d atEof = itemsSpec decode getLen fuel d atEof := by
  intro fuel
  induction fuel with
  | zero => intro d atEof h; omega
  | succ fuel ih =>
    intro d atEof h
    cases atEof with
    | true => rw [itemsSpec_atEof, itemsSpec_atEof]
    | false =>
      rw [itemsSpec, itemsSpec]
      simp only [Bool.false_eq_true, if_false]
      cases hph : phSpec decode true d with
      | error e => rfl
      | ok v =>
        obtain ⟨ho, d', eof'⟩ := v
        cases ho with
        | none => rfl
        | some h2 =>
          have hlt : d'.length < d.length := phSpec_some_length decode d h2 d' eof' hph
          simp only []
          cases hl : getLen h2 with
          | none =>
            simp only []
            cases hb : ruSpec .newline d' with
            | error msg => rfl
            | ok w =>
              obtain ⟨body, d2, eof2⟩ := w
              have hle := ruSpec_ok_length .newline d' body d2 eof2 hb
              simp only []
              rw [ih d2 eof2 (by omega)]
          | some len =>
            simp only []
            cases hb : ruSpec (.length len 0 lengthEofMsg) d' with
            | error msg => rfl
            | ok w =>
              obtain ⟨body, d2, eof2⟩ := w
              have hle := ruSpec_ok_length _ d' body d2 eof2 hb
              simp only []
              cases hb2 : ruSpec .newline d2 with
              | error msg => rfl
              | ok w2 =>
                obtain ⟨o2, d3, eof3⟩ := w2
                have hle2 := ruSpec_ok_length .newline d2 o2 d3 eof3 hb2
                simp only []
                rw [ih d3 eof3 (by omega)]

theorem getItemsLoop_fuel_stable {H : Type} (decode : List Nat → Option H)
    (getLen : H → Option Int) (hLen : ∀ h L, getLen h = some L → 0 ≤ L)
    (cs : Nat) (hcs : 1 ≤ cs) (fuel : Nat) (rem data : List Nat) (atEof : Bool)
    (h : rem.length + data.length < fuel) :
    getItemsLoop decode getLen cs (fuel + 1) rem data atEof =
      getItemsLoop decode getLen cs fuel rem data atEof := by
  rw [getItemsLoop_flat decode getLen hLen cs hcs (fuel + 1) rem data atEof,
      getItemsLoop_flat decode getLen hLen cs hcs fuel rem data atEof,
      itemsSpec_fuel_stable decode getLen fuel (rem ++ data) atEof
        (by rw [List.length_append]; omega)]

end Bugsink
